import Mathlib

/-!
FIFO buffer and LRU cache (cached_fifo_buffer.cpp, last_recently_used_buffer.cpp).

Both classes hold the same three private members:

* `capacity_ : size_t`,
* `buffer_ : std::list<std::pair<int, std::string>>`,
* `cache_map_ : std::unordered_map<int, std::list<PairType>::iterator>`.

A `std::list` iterator is a stable reference to one list node.  The embedding
gives every list node an address; an iterator is the address of the node it
designates.  Operations whose behaviour C++ leaves undefined on the given
arguments (`back()` / `pop_back()` of an empty list, dereferencing or splicing
an iterator that designates no node of the list) yield `none`.

Keys are C++ `int` values and are only ever compared for equality, so they are
taken as integers; `capacity_` is a `size_t` that is only compared with the
list size, so it is a natural number.  Memory exhaustion is not modelled.

two_sum_problem.cpp and max_sum_problem.cpp compute with `int`: an addition or
subtraction whose exact result lies outside the range of `int` is signed
overflow, which is undefined.  A `Node *` is the address of a node in a heap,
and the depth of the recursion of `maxPathSumCached` is bounded by fuel.
-/

/-- An iterator of `std::list<PairType>`: the address of the node it designates. -/
abbrev Iter := Nat

/-- One node of `std::list<std::pair<int, std::string>>`: its address and the
stored pair (`first` is the key, `second` the value). -/
structure ListNode where
  addr : Iter
  first : Int
  second : String
deriving DecidableEq, Repr

namespace StdList

/-- Address handed out for a newly allocated node: any address that no live
node of the list occupies (and never `0`); here one past the largest live one. -/
def freshAddr (l : List ListNode) : Iter :=
  (l.map (fun n => n.addr)).foldr max 0 + 1

/-- Dereference `it`: the node of `l` whose address is `it`; `none` when `it`
designates no node of `l`. -/
def deref (l : List ListNode) (it : Iter) : Option ListNode :=
  l.find? (fun n => decide (n.addr = it))

/-- The assignment `it->second = value`.  The nodes of a list the program has
built have pairwise distinct addresses, so exactly one node is written. -/
def setSecond (l : List ListNode) (it : Iter) (value : String) : Option (List ListNode) :=
  match deref l it with
  | none => none
  | some _ =>
    some (l.map (fun n => if n.addr = it then { n with second := value } else n))

/-- The call `l.splice(l.begin(), l, it)`: unlink the node `it` designates and
relink it before the first node; every node keeps its address. -/
def spliceFront (l : List ListNode) (it : Iter) : Option (List ListNode) :=
  match deref l it with
  | none => none
  | some n => some (n :: l.eraseP (fun m => decide (m.addr = it)))

/-- The call `l.back()`. -/
def back (l : List ListNode) : Option ListNode := l.getLast?

/-- The call `l.pop_back()`. -/
def pop_back (l : List ListNode) : Option (List ListNode) :=
  match l with
  | [] => none
  | _ :: _ => some l.dropLast

/-- The call `l.emplace_front(key, value)`. -/
def emplace_front (l : List ListNode) (key : Int) (value : String) : List ListNode :=
  { addr := freshAddr l, first := key, second := value } :: l

/-- The call `l.begin()`; the past-the-end iterator is address `0`. -/
def begin (l : List ListNode) : Iter :=
  match l with
  | [] => 0
  | n :: _ => n.addr

end StdList

namespace UMap

/-- The call `m.find(key)`: `none` stands for `m.end()`, `some it` for an
iterator to the element whose mapped value is `it`. -/
def find (m : List (Int × Iter)) (key : Int) : Option Iter :=
  match m with
  | [] => none
  | (k, it) :: rest => if k = key then some it else find rest key

/-- The call `m.erase(key)`. -/
def erase (m : List (Int × Iter)) (key : Int) : List (Int × Iter) :=
  m.filter (fun p => decide (p.1 ≠ key))

/-- The assignment `m[key] = it`: overwrite the mapped value when `key` is
present, insert a new element otherwise. -/
def assign (m : List (Int × Iter)) (key : Int) (it : Iter) : List (Int × Iter) :=
  match find m key with
  | some _ => m.map (fun p => if p.1 = key then (key, it) else p)
  | none => (key, it) :: m

end UMap

/-- The object state of a `FIFOBuffer` or of an `LRUCache`: the two classes
declare the same three data members. -/
structure State where
  capacity_ : Nat
  buffer_ : List ListNode
  cache_map_ : List (Int × Iter)
deriving DecidableEq, Repr

/-- What a call of `get` hands back to its caller: the returned string, or the
exception `std::out_of_range("Key not found")`. -/
inductive GetResult where
  | value (v : String)
  | out_of_range
deriving DecidableEq, Repr

/-- One call on a cache object. -/
inductive Op where
  | put (key : Int) (value : String)
  | get (key : Int)
deriving DecidableEq, Repr

/-- Whether the call is a `put`. -/
def Op.isPut : Op → Bool
  | .put _ _ => true
  | .get _ => false

namespace FIFOBuffer

/-- The constructor `FIFOBuffer(size_t capacity)`. -/
def new (capacity : Nat) : State :=
  { capacity_ := capacity, buffer_ := [], cache_map_ := [] }

/-- The method `FIFOBuffer::put` (cached_fifo_buffer.cpp lines 15-37). -/
def put (s : State) (key : Int) (value : String) : Option State :=
  match UMap.find s.cache_map_ key with
  | some it =>
    -- it->second = value; buffer_.splice(buffer_.begin(), buffer_, it); return;
    match StdList.setSecond s.buffer_ it value with
    | none => none
    | some b1 =>
      match StdList.spliceFront b1 it with
      | none => none
      | some b2 => some { s with buffer_ := b2 }
  | none =>
    if s.buffer_.length ≥ s.capacity_ then
      -- auto last = buffer_.back(); cache_map_.erase(last.first); buffer_.pop_back();
      match StdList.back s.buffer_ with
      | none => none
      | some last =>
        let m1 := UMap.erase s.cache_map_ last.first
        match StdList.pop_back s.buffer_ with
        | none => none
        | some b1 =>
          let b2 := StdList.emplace_front b1 key value
          some { s with buffer_ := b2, cache_map_ := UMap.assign m1 key (StdList.begin b2) }
    else
      let b2 := StdList.emplace_front s.buffer_ key value
      some { s with buffer_ := b2,
                    cache_map_ := UMap.assign s.cache_map_ key (StdList.begin b2) }

/-- The method `FIFOBuffer::get` (cached_fifo_buffer.cpp lines 39-44): the
result handed to the caller and the object state afterwards. -/
def get (s : State) (key : Int) : Option (GetResult × State) :=
  match UMap.find s.cache_map_ key with
  | none => some (GetResult.out_of_range, s)
  | some it =>
    match StdList.deref s.buffer_ it with
    | none => none
    | some n => some (GetResult.value n.second, s)

/-- One call on a `FIFOBuffer`; an exception thrown by `get` is caught by the
caller, as in `runTests`. -/
def step (s : State) : Op → Option State
  | .put key value => put s key value
  | .get key => (get s key).map Prod.snd

/-- A sequence of calls on a `FIFOBuffer`, in order. -/
def run (s : State) : List Op → Option State
  | [] => some s
  | op :: ops =>
    match step s op with
    | none => none
    | some s1 => run s1 ops

end FIFOBuffer

namespace LRUCache

/-- The constructor `LRUCache(size_t capacity)`. -/
def new (capacity : Nat) : State :=
  { capacity_ := capacity, buffer_ := [], cache_map_ := [] }

/-- The method `LRUCache::put` (last_recently_used_buffer.cpp lines 17-39). -/
def put (s : State) (key : Int) (value : String) : Option State :=
  match UMap.find s.cache_map_ key with
  | some it =>
    match StdList.setSecond s.buffer_ it value with
    | none => none
    | some b1 =>
      match StdList.spliceFront b1 it with
      | none => none
      | some b2 => some { s with buffer_ := b2 }
  | none =>
    if s.buffer_.length ≥ s.capacity_ then
      match StdList.back s.buffer_ with
      | none => none
      | some last =>
        let m1 := UMap.erase s.cache_map_ last.first
        match StdList.pop_back s.buffer_ with
        | none => none
        | some b1 =>
          let b2 := StdList.emplace_front b1 key value
          some { s with buffer_ := b2, cache_map_ := UMap.assign m1 key (StdList.begin b2) }
    else
      let b2 := StdList.emplace_front s.buffer_ key value
      some { s with buffer_ := b2,
                    cache_map_ := UMap.assign s.cache_map_ key (StdList.begin b2) }

/-- The method `LRUCache::get` (last_recently_used_buffer.cpp lines 41-51). -/
def get (s : State) (key : Int) : Option (GetResult × State) :=
  match UMap.find s.cache_map_ key with
  | none => some (GetResult.out_of_range, s)
  | some it =>
    -- buffer_.splice(buffer_.begin(), buffer_, it); return it->second;
    match StdList.spliceFront s.buffer_ it with
    | none => none
    | some b1 =>
      match StdList.deref b1 it with
      | none => none
      | some n => some (GetResult.value n.second, { s with buffer_ := b1 })

/-- One call on an `LRUCache`; an exception thrown by `get` is caught by the
caller, as in `runTests`. -/
def step (s : State) : Op → Option State
  | .put key value => put s key value
  | .get key => (get s key).map Prod.snd

/-- A sequence of calls on an `LRUCache`, in order. -/
def run (s : State) : List Op → Option State
  | [] => some s
  | op :: ops =>
    match step s op with
    | none => none
    | some s1 => run s1 ops

end LRUCache

/-- The ordering read from front to back as key-value pairs. -/
def State.entries (s : State) : List (Int × String) :=
  s.buffer_.map (fun n => (n.first, n.second))

/-- The keys of the ordering, front to back. -/
def State.keys (s : State) : List Int :=
  s.buffer_.map (fun n => n.first)

/-- The states a `FIFOBuffer` constructed with capacity `c` can be in: those
some sequence of `put` and `get` calls leads to. -/
def FIFOBuffer.Reachable (c : Nat) (s : State) : Prop :=
  ∃ ops, FIFOBuffer.run (FIFOBuffer.new c) ops = some s

/-- The states an `LRUCache` constructed with capacity `c` can be in: those
some sequence of `put` and `get` calls leads to. -/
def LRUCache.Reachable (c : Nat) (s : State) : Prop :=
  ∃ ops, LRUCache.run (LRUCache.new c) ops = some s

/-- The calls `put(k1, v1); put(k2, v2); ...` for a list of key-value pairs. -/
def putsOf (kvs : List (Int × String)) : List Op :=
  kvs.map (fun kv => Op.put kv.1 kv.2)

/-- The `runTests` call sequence of both test drivers up to `put(4, "four")`. -/
def testOps : List Op :=
  [.put 1 "one", .put 2 "two", .put 3 "three", .get 1, .get 2, .get 3, .put 4 "four"]

/-- The state of a `FIFOBuffer(3)` after `testOps`. -/
def fifoTestState : State :=
  { capacity_ := 3,
    buffer_ := [⟨4, 4, "four"⟩, ⟨3, 3, "three"⟩, ⟨2, 2, "two"⟩],
    cache_map_ := [(4, 4), (3, 3), (2, 2)] }

/-- The `runTests` call sequence of last_recently_used_buffer.cpp up to the
`get(2)` of line 89. -/
def lruTestOps : List Op :=
  [.put 1 "one", .put 2 "two", .put 3 "three", .get 1, .get 2, .get 3, .put 4 "four",
   .get 1, .get 2, .get 3, .get 4, .put 2 "two-updated", .get 2]

/-- The state of an `LRUCache(3)` after `lruTestOps`. -/
def lruTestState : State :=
  { capacity_ := 3,
    buffer_ := [⟨2, 2, "two-updated"⟩, ⟨4, 4, "four"⟩, ⟨3, 3, "three"⟩],
    cache_map_ := [(4, 4), (3, 3), (2, 2)] }

/-- The state of an `LRUCache(3)` after `lruTestOps` and the `get(3)` of line 92. -/
def lruTestStateGot : State :=
  { capacity_ := 3,
    buffer_ := [⟨3, 3, "three"⟩, ⟨2, 2, "two-updated"⟩, ⟨4, 4, "four"⟩],
    cache_map_ := [(4, 4), (3, 3), (2, 2)] }

/-- The state after `put(5, "five")` on `fifoTestState`, for either class. -/
def fifoTestStatePut5 : State :=
  { capacity_ := 3,
    buffer_ := [⟨5, 5, "five"⟩, ⟨4, 4, "four"⟩, ⟨3, 3, "three"⟩],
    cache_map_ := [(5, 5), (4, 4), (3, 3)] }

/-- The representation invariant of a cache object: list nodes have pairwise
distinct addresses, the ordering holds every key at most once, the index maps
exactly the keys of the ordering, each to the address of the node holding it,
and the ordering is no longer than the capacity. -/
structure State.WF (s : State) : Prop where
  addr_nodup : (s.buffer_.map (fun n => n.addr)).Nodup
  key_nodup : s.keys.Nodup
  index : List.Perm s.cache_map_ (s.buffer_.map (fun n => (n.first, n.addr)))
  cap : s.buffer_.length ≤ s.capacity_

/-- The call sequence of the spec's LRU promotion scenario: `put` of keys 1, 2,
3, 4, then `get(3)`, then `put(5, _)`. -/
def specScenarioOps (v1 v2 v3 v4 v5 : String) : List Op :=
  [.put 1 v1, .put 2 v2, .put 3 v3, .put 4 v4, .get 3, .put 5 v5]

/-- The calls of `runTests` in last_recently_used_buffer.cpp up to and including
the `put(5, "five")` of line 93. -/
def lruTestOpsPut5 : List Op :=
  lruTestOps ++ [.get 3, .put 5 "five"]

/-- The keys a call sequence on an `LRUCache` touches, in the order of the
calls: every `put` touches its key, a `get` touches its key when it returns a
value and touches nothing when it throws. -/
def LRUCache.touches (s : State) : List Op → List Int
  | [] => []
  | .put key value :: ops =>
    match LRUCache.put s key value with
    | some s1 => key :: touches s1 ops
    | none => [key]
  | .get key :: ops =>
    match LRUCache.get s key with
    | some (GetResult.value _, s1) => key :: touches s1 ops
    | some (GetResult.out_of_range, s1) => touches s1 ops
    | none => []

/-- A recency list after one more touch of `k`: `k` first, the other keys in
their order. -/
def touchKey (k : Int) (recency : List Int) : List Int :=
  k :: recency.filter (fun j => decide (j ≠ k))

/-- The spec's recency list of a sequence of touches (given in the order they
happened): the distinct touched keys, most recently touched first. -/
def recencyOrder (touches : List Int) : List Int :=
  touches.foldl (fun recency k => touchKey k recency) []

/-- The state of an `LRUCache(3)` after the test driver's `put(5, "five")` of
line 93; the new node reuses the address of the evicted one. -/
def lruTestStatePut5 : State :=
  { capacity_ := 3,
    buffer_ := [⟨4, 5, "five"⟩, ⟨3, 3, "three"⟩, ⟨2, 2, "two-updated"⟩],
    cache_map_ := [(5, 4), (3, 3), (2, 2)] }

/-- The least value of a C++ `int`, taken as 32 bits wide. -/
def INT_MIN : Int := -2147483648

/-- The greatest value of a C++ `int`, taken as 32 bits wide. -/
def INT_MAX : Int := 2147483647

/-- The `int` subtraction `a - b`; a result outside the range of `int` is
signed overflow, which C++ leaves undefined (`none`). -/
def intSub (a b : Int) : Option Int :=
  if INT_MIN ≤ a - b ∧ a - b ≤ INT_MAX then some (a - b) else none

/-- The `int` addition `a + b`; a result outside the range of `int` is signed
overflow, which C++ leaves undefined (`none`). -/
def intAdd (a b : Int) : Option Int :=
  if INT_MIN ≤ a + b ∧ a + b ≤ INT_MAX then some (a + b) else none

/-- The loop of `hasTwoSum` (two_sum_problem.cpp lines 24-30) from index `i` on:
the first argument is what is left of `nums` from position `i`, `numMap` is the
`std::unordered_map<int, int>` of the numbers seen so far with their indices. -/
def hasTwoSumLoop (target : Int) : List Int → Nat → List (Int × Nat) → Option Bool
  | [], _, _ => some false
  | x :: rest, i, numMap =>
    match intSub target x with
    | none => none
    | some complement =>
      match UMap.find numMap complement with
      | some _ => some true
      | none => hasTwoSumLoop target rest (i + 1) (UMap.assign numMap x i)

/-- The function `hasTwoSum` (two_sum_problem.cpp lines 21-33). -/
def hasTwoSum (nums : List Int) (target : Int) : Option Bool :=
  hasTwoSumLoop target nums 0 []

/-- A `Node` of max_sum_problem.cpp.  A `Node *` is `none` for the null pointer
and `some a` for a pointer to the node at address `a`. -/
structure Node where
  value : Int
  children : List (Option Nat)
deriving DecidableEq, Repr

/-- The memory that holds the nodes of a graph: the node at address `a` is the
`a`-th element; an address past the end designates no node. -/
abbrev Heap := List Node

/-- How a call ends: it returns a result, its behaviour is undefined (signed
overflow, or a pointer to no node is dereferenced), or the recursion is deeper
than the fuel given to the model. -/
inductive Outcome (α : Type) where
  | ok (a : α)
  | undefined
  | outOfFuel
deriving DecidableEq, Repr

namespace NodeCache

/-- The call `cache.find(node)` on the `std::unordered_map<Node *, int>`; `none`
stands for `cache.end()`. -/
def find (cache : List (Nat × Int)) (node : Nat) : Option Int :=
  match cache with
  | [] => none
  | (a, v) :: rest => if a = node then some v else find rest node

/-- The assignment `cache[node] = v`. -/
def assign (cache : List (Nat × Int)) (node : Nat) (v : Int) : List (Nat × Int) :=
  match find cache node with
  | some _ => cache.map (fun p => if p.1 = node then (node, v) else p)
  | none => (node, v) :: cache

end NodeCache

/-- The loop `for (Node *child : node->children) maxSum = std::max(maxSum,
maxPathSumCached(child, cache));` with the recursive call passed as `call`. -/
def childrenLoop (call : Option Nat → List (Nat × Int) → Outcome (Int × List (Nat × Int))) :
    List (Option Nat) → Int → List (Nat × Int) → Outcome (Int × List (Nat × Int))
  | [], maxSum, cache => Outcome.ok (maxSum, cache)
  | child :: rest, maxSum, cache =>
    match call child cache with
    | Outcome.ok (r, cache1) => childrenLoop call rest (max maxSum r) cache1
    | Outcome.undefined => Outcome.undefined
    | Outcome.outOfFuel => Outcome.outOfFuel

/-- The function `maxPathSumCached` (max_sum_problem.cpp lines 22-37) on the
nodes held in `g`; `fuel` bounds the depth of the recursion. -/
def maxPathSumCached (g : Heap) (fuel : Nat) (node : Option Nat) (cache : List (Nat × Int)) :
    Outcome (Int × List (Nat × Int)) :=
  match node with
  | none => Outcome.ok (0, cache)
  | some a =>
    match NodeCache.find cache a with
    | some v => Outcome.ok (v, cache)
    | none =>
      match fuel with
      | 0 => Outcome.outOfFuel
      | fuel1 + 1 =>
        match g[a]? with
        | none => Outcome.undefined
        | some n =>
          match childrenLoop (maxPathSumCached g fuel1) n.children 0 cache with
          | Outcome.ok (maxSum, cache1) =>
            -- maxSum += node->value; cache[node] = maxSum;
            match intAdd maxSum n.value with
            | none => Outcome.undefined
            | some r => Outcome.ok (r, NodeCache.assign cache1 a r)
          | Outcome.undefined => Outcome.undefined
          | Outcome.outOfFuel => Outcome.outOfFuel

/-- The function `maxPathSum` (max_sum_problem.cpp lines 39-43). -/
def maxPathSum (g : Heap) (fuel : Nat) (root : Option Nat) : Outcome Int :=
  match maxPathSumCached g fuel root [] with
  | Outcome.ok (r, _) => Outcome.ok r
  | Outcome.undefined => Outcome.undefined
  | Outcome.outOfFuel => Outcome.outOfFuel

/-- The loop over the children in the recursion without a cache. -/
def plainLoop (call : Option Nat → Outcome Int) : List (Option Nat) → Int → Outcome Int
  | [], maxSum => Outcome.ok maxSum
  | child :: rest, maxSum =>
    match call child with
    | Outcome.ok r => plainLoop call rest (max maxSum r)
    | Outcome.undefined => Outcome.undefined
    | Outcome.outOfFuel => Outcome.outOfFuel

/-- The plain recursion the claims compare with: `f(null) = 0` and
`f(n) = value(n) + max(0, max over the children c of f(c))`, in `int`
arithmetic, children taken in order, without any cache. -/
def maxPathSumPlain (g : Heap) (fuel : Nat) (node : Option Nat) : Outcome Int :=
  match node with
  | none => Outcome.ok 0
  | some a =>
    match fuel with
    | 0 => Outcome.outOfFuel
    | fuel1 + 1 =>
      match g[a]? with
      | none => Outcome.undefined
      | some n =>
        match plainLoop (maxPathSumPlain g fuel1) n.children 0 with
        | Outcome.ok maxSum =>
          match intAdd maxSum n.value with
          | none => Outcome.undefined
          | some r => Outcome.ok r
        | Outcome.undefined => Outcome.undefined
        | Outcome.outOfFuel => Outcome.outOfFuel

/-- Whether the addresses `p` form a non-empty path of `g`: every address
designates a node and each next address is among the children of the node
before it. -/
def isPath (g : Heap) : List Nat → Bool
  | [] => false
  | [a] => decide (a < g.length)
  | a :: b :: rest =>
    (match g[a]? with
      | some n => decide (some b ∈ n.children)
      | none => false) && isPath g (b :: rest)

/-- The value of the node at address `a` (0 when there is none). -/
def nodeValue (g : Heap) (a : Nat) : Int :=
  match g[a]? with
  | some n => n.value
  | none => 0

/-- The sum of the node values along a path, as an exact integer. -/
def pathSum (g : Heap) (p : List Nat) : Int :=
  (p.map (nodeValue g)).sum

/-- Whether `g` is a directed acyclic graph with valid pointers, as `rank`
shows: every non-null child pointer designates a node of `g` whose rank is
below the rank of its parent. -/
def wellRanked (g : Heap) (rank : Nat → Nat) : Bool :=
  (List.range g.length).all (fun a =>
    match g[a]? with
    | none => true
    | some n => n.children.all (fun c =>
        match c with
        | none => true
        | some b => decide (b < g.length) && decide (rank b < rank a)))

/-- The graph `main` builds (max_sum_problem.cpp lines 47-58): `root` at
address 0, `child1` to `child5` at addresses 1 to 5. -/
def testHeap : Heap :=
  [⟨10, [some 1, some 2]⟩, ⟨2, [some 3]⟩, ⟨10, []⟩, ⟨-25, [some 4, some 5]⟩,
   ⟨3, []⟩, ⟨4, []⟩]

/-- A rank for `testHeap`: the length of the longest chain of children below a node. -/
def testRank (a : Nat) : Nat :=
  [3, 2, 0, 1, 0, 0].getD a 0

/-- A root of value `INT_MAX` with one child of value 1. -/
def overflowHeap : Heap :=
  [⟨2147483647, [some 1]⟩, ⟨1, []⟩]

/-- What `wellRanked` checks, as a proposition: every non-null child pointer of
a node of `g` designates a node of `g` of smaller rank. -/
def Ranked (g : Heap) (rank : Nat → Nat) : Prop :=
  ∀ a n, g[a]? = some n → ∀ b, some b ∈ n.children → b < g.length ∧ rank b < rank a

/-- The spec's maximum path sum: `v` is the sum of the node values along some
non-empty path that starts at `a` and follows child edges, and no such path
has a greater sum. -/
def IsMaxPathSum (g : Heap) (a : Nat) (v : Int) : Prop :=
  (∃ q, isPath g q = true ∧ q.head? = some a ∧ pathSum g q = v) ∧
  ∀ q, isPath g q = true → q.head? = some a → pathSum g q ≤ v

/-- No path that starts at a node reachable from `a` (the end `q` of a path
`p ++ q` from `a`) has a sum above `INT_MAX`. -/
def PathsFit (g : Heap) (a : Nat) : Prop :=
  ∀ p q, isPath g (p ++ q) = true → (p ++ q).head? = some a → q ≠ [] →
    pathSum g q ≤ INT_MAX

/-- The invariant of the memoization cache: every value stored for a node is
what the plain recursion returns for that node. -/
def CacheSound (g : Heap) (rank : Nat → Nat) (cache : List (Nat × Int)) : Prop :=
  ∀ m v, NodeCache.find cache m = some v →
    maxPathSumPlain g (rank m + 1) (some m) = Outcome.ok v

/-! The list and map primitives -/

theorem nodup_mid {α β : Type} (f : α → β) {l1 l2 : List α} {n : α}
    (h : ((l1 ++ n :: l2).map f).Nodup) :
    (∀ m ∈ l1, f m ≠ f n) ∧ (∀ m ∈ l2, f m ≠ f n) := by
  simp only [List.map_append, List.map_cons, List.nodup_append, List.nodup_cons,
    List.mem_map, List.Disjoint] at h
  obtain ⟨-, ⟨h2, -⟩, h3⟩ := h
  refine ⟨fun m hm he => ?_, fun m hm he => h2 ⟨m, hm, he⟩⟩
  exact h3 ⟨m, hm, rfl⟩ (by simp [he])

namespace StdList

theorem le_foldr_max {l : List Nat} {a : Nat} (h : a ∈ l) : a ≤ l.foldr max 0 := by
  induction l with
  | nil => simp at h
  | cons b t ih =>
    simp only [List.foldr_cons]
    rcases List.mem_cons.1 h with rfl | h
    · exact le_max_left _ _
    · exact le_trans (ih h) (le_max_right _ _)

theorem freshAddr_ne {l : List ListNode} {n : ListNode} (h : n ∈ l) :
    n.addr ≠ freshAddr l := by
  have : n.addr ≤ (l.map (fun n => n.addr)).foldr max 0 :=
    le_foldr_max (List.mem_map.2 ⟨n, h, rfl⟩)
  exact Nat.ne_of_lt (Nat.lt_succ_of_le this)

theorem deref_mid (l1 l2 : List ListNode) (n : ListNode)
    (h1 : ∀ m ∈ l1, m.addr ≠ n.addr) :
    deref (l1 ++ n :: l2) n.addr = some n := by
  have h : l1.find? (fun m => decide (m.addr = n.addr)) = none := by
    simpa [List.find?_eq_none] using h1
  simp [deref, List.find?_append, h]

theorem deref_eq_none {l : List ListNode} {it : Iter}
    (h : ∀ m ∈ l, m.addr ≠ it) : deref l it = none := by
  simpa [deref, List.find?_eq_none] using h

theorem spliceFront_mid (l1 l2 : List ListNode) (n : ListNode)
    (h1 : ∀ m ∈ l1, m.addr ≠ n.addr) :
    spliceFront (l1 ++ n :: l2) n.addr = some (n :: (l1 ++ l2)) := by
  have h : ∀ m ∈ l1, ¬ (decide (m.addr = n.addr) = true) := by
    intro m hm; simpa using h1 m hm
  simp [spliceFront, deref_mid l1 l2 n h1, List.eraseP_append_right _ h]

theorem setSecond_mid (l1 l2 : List ListNode) (n : ListNode) (value : String)
    (h1 : ∀ m ∈ l1, m.addr ≠ n.addr) (h2 : ∀ m ∈ l2, m.addr ≠ n.addr) :
    setSecond (l1 ++ n :: l2) n.addr value
      = some (l1 ++ { n with second := value } :: l2) := by
  have e1 : l1.map (fun m => if m.addr = n.addr then { m with second := value } else m)
      = l1 := by
    conv_rhs => rw [← List.map_id l1]
    exact List.map_congr_left (fun m hm => by simp [h1 m hm])
  have e2 : l2.map (fun m => if m.addr = n.addr then { m with second := value } else m)
      = l2 := by
    conv_rhs => rw [← List.map_id l2]
    exact List.map_congr_left (fun m hm => by simp [h2 m hm])
  simp [setSecond, deref_mid l1 l2 n h1, e1, e2]

end StdList

namespace UMap

theorem find_eq_none_iff (m : List (Int × Iter)) (key : Int) :
    find m key = none ↔ key ∉ m.map Prod.fst := by
  induction m with
  | nil => simp [find]
  | cons p t ih =>
    obtain ⟨k, it⟩ := p
    by_cases h : k = key
    · simp [find, h]
    · have h' : ¬ key = k := fun e => h e.symm
      simp [find, h, h', ih]

theorem find_eq_some_iff (m : List (Int × Iter)) (key : Int) (it : Iter)
    (hnd : (m.map Prod.fst).Nodup) :
    find m key = some it ↔ (key, it) ∈ m := by
  induction m with
  | nil => simp [find]
  | cons p t ih =>
    obtain ⟨k, i⟩ := p
    simp only [List.map_cons, List.nodup_cons, List.mem_map, not_exists, not_and] at hnd
    by_cases h : k = key
    · subst h
      have hnot : (k, it) ∉ t := fun hm => hnd.1 (k, it) hm rfl
      simp [find, hnot]
      exact eq_comm
    · have h' : ¬ key = k := fun e => h e.symm
      simp [find, h, h', ih hnd.2]

end UMap

/-! The invariant and the index -/

namespace State.WF

theorem index_keys_nodup {s : State} (h : s.WF) : (s.cache_map_.map Prod.fst).Nodup := by
  have hp := h.index.map Prod.fst
  rw [hp.nodup_iff]
  simpa [State.keys, List.map_map, Function.comp_def] using h.key_nodup

theorem index_find_eq_some_iff {s : State} (h : s.WF) (key : Int) (it : Iter) :
    UMap.find s.cache_map_ key = some it
      ↔ ∃ n ∈ s.buffer_, n.first = key ∧ n.addr = it := by
  rw [UMap.find_eq_some_iff _ _ _ h.index_keys_nodup, h.index.mem_iff]
  simp [List.mem_map]

theorem index_find_eq_none_iff {s : State} (h : s.WF) (key : Int) :
    UMap.find s.cache_map_ key = none ↔ key ∉ s.keys := by
  rw [UMap.find_eq_none_iff, (h.index.map Prod.fst).mem_iff]
  simp [State.keys, List.map_map, Function.comp_def]

theorem length_index {s : State} (h : s.WF) : s.cache_map_.length = s.buffer_.length := by
  simpa using h.index.length_eq

/-- Moving one node to the front, with any value written into it, keeps the invariant. -/
theorem touch {s : State} (h : s.WF) {l1 l2 : List ListNode} {n : ListNode}
    (hb : s.buffer_ = l1 ++ n :: l2) (value : String) :
    State.WF { s with buffer_ := { n with second := value } :: (l1 ++ l2) } := by
  have hperm : List.Perm (l1 ++ n :: l2) (n :: (l1 ++ l2)) := List.perm_middle
  refine ⟨?_, ?_, ?_, ?_⟩
  · have := h.addr_nodup
    rw [hb, (hperm.map _).nodup_iff] at this
    simpa using this
  · have := h.key_nodup
    rw [State.keys, hb, (hperm.map _).nodup_iff] at this
    simpa [State.keys] using this
  · have := h.index
    rw [hb] at this
    simpa using this.trans (hperm.map _)
  · have := h.cap
    rw [hb] at this
    simpa using this

/-- Dropping the last node together with its index element keeps the invariant. -/
theorem evict {s : State} (h : s.WF) {l : List ListNode} {last : ListNode}
    (hb : s.buffer_ = l ++ [last]) :
    State.WF { s with buffer_ := l, cache_map_ := UMap.erase s.cache_map_ last.first } := by
  have hk := h.key_nodup
  rw [State.keys, hb] at hk
  have hne : ∀ m ∈ l, m.first ≠ last.first :=
    (nodup_mid (fun n : ListNode => n.first) hk).1
  refine ⟨?_, ?_, ?_, ?_⟩
  · have := h.addr_nodup
    rw [hb] at this
    simp only [List.map_append, List.nodup_append] at this
    exact this.1
  · simp only [List.map_append, List.nodup_append] at hk
    exact hk.1
  · have hp := h.index.filter (fun p => decide (p.1 ≠ last.first))
    rw [hb] at hp
    have e : List.filter (fun p => decide (p.1 ≠ last.first))
        (List.map (fun n => (n.first, n.addr)) (l ++ [last]))
        = List.map (fun n => (n.first, n.addr)) l := by
      rw [List.map_append, List.filter_append]
      have e1 : List.filter (fun p => decide (p.1 ≠ last.first))
          (List.map (fun n => (n.first, n.addr)) l)
          = List.map (fun n => (n.first, n.addr)) l := by
        rw [List.filter_eq_self]
        intro p hp
        obtain ⟨m, hm, rfl⟩ := List.mem_map.1 hp
        simpa using hne m hm
      rw [e1]
      simp
    rw [e] at hp
    exact hp
  · have := h.cap
    rw [hb] at this
    simp only [List.length_append, List.length_singleton] at this
    exact Nat.le_of_succ_le this

/-- Linking a newly allocated node for an absent key at the front, and mapping
the key to it, keeps the invariant when there is room. -/
theorem insert {s : State} (h : s.WF) {key : Int} (hk : key ∉ s.keys)
    (hlt : s.buffer_.length < s.capacity_) (value : String) :
    State.WF { s with
      buffer_ := { addr := StdList.freshAddr s.buffer_, first := key, second := value }
        :: s.buffer_,
      cache_map_ := (key, StdList.freshAddr s.buffer_) :: s.cache_map_ } := by
  refine ⟨?_, ?_, ?_, ?_⟩
  · simp only [List.map_cons, List.nodup_cons, List.mem_map, not_exists, not_and]
    exact ⟨fun m hm he => StdList.freshAddr_ne hm he, h.addr_nodup⟩
  · simp only [State.keys, List.map_cons, List.nodup_cons]
    exact ⟨hk, h.key_nodup⟩
  · simpa using h.index
  · simpa using hlt

end State.WF

/-! What `put` and `get` compute on a state that satisfies the invariant -/

theorem StdList.pop_back_concat (l : List ListNode) (a : ListNode) :
    StdList.pop_back (l ++ [a]) = some l := by
  cases l with
  | nil => simp [StdList.pop_back]
  | cons b t =>
    have e : ((b :: t) ++ [a]).dropLast = b :: t := List.dropLast_concat
    simp only [StdList.pop_back, List.cons_append] at e ⊢
    rw [e]

theorem UMap.find_erase_none {m : List (Int × Iter)} {key : Int} (j : Int)
    (h : UMap.find m key = none) : UMap.find (UMap.erase m j) key = none := by
  rw [UMap.find_eq_none_iff] at h ⊢
  intro hm
  apply h
  obtain ⟨p, hp, rfl⟩ := List.mem_map.1 hm
  exact List.mem_map.2 ⟨p, (List.mem_filter.1 hp).1, rfl⟩

theorem State.keys_eq_entries (s : State) : s.keys = s.entries.map Prod.fst := by
  simp [State.keys, State.entries, List.map_map, Function.comp_def]

theorem State.length_entries (s : State) : s.entries.length = s.buffer_.length := by
  simp [State.entries]

theorem State.length_keys (s : State) : s.keys.length = s.buffer_.length := by
  simp [State.keys]

/-- The ordering after node `n` of `l1 ++ n :: l2` was moved to the front with
`value` written into it: the pair of `n` first, the other pairs in their order. -/
theorem State.WF.entries_touch {s : State} (h : s.WF) {l1 l2 : List ListNode}
    {n : ListNode} (hb : s.buffer_ = l1 ++ n :: l2) (value : String) :
    State.entries { s with buffer_ := { n with second := value } :: (l1 ++ l2) }
      = (n.first, value) :: s.entries.filter (fun e => decide (e.1 ≠ n.first)) := by
  have hk := h.key_nodup
  rw [State.keys, hb] at hk
  obtain ⟨k1, k2⟩ := nodup_mid (fun n : ListNode => n.first) hk
  have e1 : ∀ l : List ListNode, (∀ m ∈ l, m.first ≠ n.first) →
      List.filter (fun e => decide (e.1 ≠ n.first)) (l.map (fun n => (n.first, n.second)))
        = l.map (fun n => (n.first, n.second)) := by
    intro l hl
    rw [List.filter_eq_self]
    intro p hp
    obtain ⟨m, hm, rfl⟩ := List.mem_map.1 hp
    simpa using hl m hm
  simp only [State.entries, hb, List.map_cons, List.map_append, List.filter_append,
    List.filter_cons, e1 l1 k1, e1 l2 k2]
  simp

namespace FIFOBuffer

theorem put_hit {s : State} (h : s.WF) {l1 l2 : List ListNode} {n : ListNode}
    (hb : s.buffer_ = l1 ++ n :: l2) (value : String) :
    put s n.first value
      = some { s with buffer_ := { n with second := value } :: (l1 ++ l2) } := by
  have ha := h.addr_nodup
  rw [hb] at ha
  obtain ⟨a1, a2⟩ := nodup_mid (fun n : ListNode => n.addr) ha
  have hf : UMap.find s.cache_map_ n.first = some n.addr :=
    (h.index_find_eq_some_iff _ _).2 ⟨n, by simp [hb], rfl, rfl⟩
  have h1 := StdList.setSecond_mid l1 l2 n value a1 a2
  have h2 := StdList.spliceFront_mid l1 l2 { n with second := value } a1
  simp only [put, hf, hb, h1]
  simp only [] at h2
  rw [h2]

theorem put_miss_room {s : State} (h : s.WF) {key : Int} (hk : key ∉ s.keys)
    (hlt : s.buffer_.length < s.capacity_) (value : String) :
    put s key value = some { s with
      buffer_ := { addr := StdList.freshAddr s.buffer_, first := key, second := value }
        :: s.buffer_,
      cache_map_ := (key, StdList.freshAddr s.buffer_) :: s.cache_map_ } := by
  have hf : UMap.find s.cache_map_ key = none := (h.index_find_eq_none_iff key).2 hk
  have hc : ¬ s.buffer_.length ≥ s.capacity_ := by omega
  simp [put, hf, hc, StdList.emplace_front, StdList.begin, UMap.assign]

theorem put_miss_full {s : State} (h : s.WF) {key : Int} (hk : key ∉ s.keys)
    {l : List ListNode} {last : ListNode} (hb : s.buffer_ = l ++ [last])
    (hge : s.capacity_ ≤ s.buffer_.length) (value : String) :
    put s key value = some { s with
      buffer_ := { addr := StdList.freshAddr l, first := key, second := value } :: l,
      cache_map_ := (key, StdList.freshAddr l) :: UMap.erase s.cache_map_ last.first } := by
  have hf : UMap.find s.cache_map_ key = none := (h.index_find_eq_none_iff key).2 hk
  have hf2 := UMap.find_erase_none last.first hf
  have hc : s.buffer_.length ≥ s.capacity_ := hge
  have hback : StdList.back (l ++ [last]) = some last := by simp [StdList.back]
  simp only [put, hf, hc, if_true]
  rw [hb, hback]
  simp only [StdList.pop_back_concat, StdList.emplace_front, StdList.begin, UMap.assign, hf2]

theorem get_hit {s : State} (h : s.WF) {l1 l2 : List ListNode} {n : ListNode}
    (hb : s.buffer_ = l1 ++ n :: l2) :
    get s n.first = some (GetResult.value n.second, s) := by
  have ha := h.addr_nodup
  rw [hb] at ha
  obtain ⟨a1, -⟩ := nodup_mid (fun n : ListNode => n.addr) ha
  have hf : UMap.find s.cache_map_ n.first = some n.addr :=
    (h.index_find_eq_some_iff _ _).2 ⟨n, by simp [hb], rfl, rfl⟩
  simp only [get, hf]
  rw [hb, StdList.deref_mid l1 l2 n a1]

theorem get_miss {s : State} (h : s.WF) {key : Int} (hk : key ∉ s.keys) :
    get s key = some (GetResult.out_of_range, s) := by
  simp [get, (h.index_find_eq_none_iff key).2 hk]

end FIFOBuffer

namespace LRUCache

theorem put_eq_fifo : put = FIFOBuffer.put := rfl

theorem new_eq_fifo : new = FIFOBuffer.new := rfl

theorem lru_get_hit {s : State} (h : s.WF) {l1 l2 : List ListNode} {n : ListNode}
    (hb : s.buffer_ = l1 ++ n :: l2) :
    get s n.first = some (GetResult.value n.second, { s with buffer_ := n :: (l1 ++ l2) }) := by
  have ha := h.addr_nodup
  rw [hb] at ha
  obtain ⟨a1, -⟩ := nodup_mid (fun n : ListNode => n.addr) ha
  have hf : UMap.find s.cache_map_ n.first = some n.addr :=
    (h.index_find_eq_some_iff _ _).2 ⟨n, by simp [hb], rfl, rfl⟩
  have hd : StdList.deref (n :: (l1 ++ l2)) n.addr = some n :=
    StdList.deref_mid [] (l1 ++ l2) n (by simp)
  simp only [get, hf]
  rw [hb, StdList.spliceFront_mid l1 l2 n a1]
  simp only [hd]

theorem lru_get_miss {s : State} (h : s.WF) {key : Int} (hk : key ∉ s.keys) :
    get s key = some (GetResult.out_of_range, s) := by
  simp [get, (h.index_find_eq_none_iff key).2 hk]

end LRUCache

/-! Summary of one call on a state that satisfies the invariant -/

theorem State.split_of_mem_keys {s : State} {key : Int} (hk : key ∈ s.keys) :
    ∃ l1 n l2, s.buffer_ = l1 ++ n :: l2 ∧ n.first = key := by
  obtain ⟨n, hn, rfl⟩ := List.mem_map.1 hk
  obtain ⟨l1, l2, hb⟩ := List.append_of_mem hn
  exact ⟨l1, n, l2, hb, rfl⟩

theorem State.mem_entries_of_split {s : State} {l1 l2 : List ListNode} {n : ListNode}
    (hb : s.buffer_ = l1 ++ n :: l2) : (n.first, n.second) ∈ s.entries := by
  simp [State.entries, hb]

theorem State.WF.of_new (capacity : Nat) : (FIFOBuffer.new capacity).WF :=
  ⟨by simp [FIFOBuffer.new], by simp [FIFOBuffer.new, State.keys],
   by simp [FIFOBuffer.new], by simp [FIFOBuffer.new]⟩

/-- In a state satisfying the invariant a key has at most one value. -/
theorem State.WF.value_unique {s : State} (h : s.WF) {key : Int} {v w : String}
    (hv : (key, v) ∈ s.entries) (hw : (key, w) ∈ s.entries) : v = w := by
  have hnd : (s.entries.map Prod.fst).Nodup := by
    rw [← State.keys_eq_entries]; exact h.key_nodup
  have := List.inj_on_of_nodup_map hnd hv hw rfl
  exact (Prod.mk.inj this).2

namespace FIFOBuffer

theorem put_spec {s : State} (h : s.WF) (hc : 1 ≤ s.capacity_) (key : Int)
    (value : String) :
    ∃ s1, put s key value = some s1 ∧ s1.WF ∧ s1.capacity_ = s.capacity_ ∧
      s1.entries =
        if key ∈ s.keys then
          (key, value) :: s.entries.filter (fun e => decide (e.1 ≠ key))
        else if s.capacity_ ≤ s.buffer_.length then (key, value) :: s.entries.dropLast
        else (key, value) :: s.entries := by
  by_cases hk : key ∈ s.keys
  · obtain ⟨l1, n, l2, hb, rfl⟩ := State.split_of_mem_keys hk
    refine ⟨_, put_hit h hb value, h.touch hb value, rfl, ?_⟩
    rw [if_pos hk]
    exact h.entries_touch hb value
  · by_cases hfull : s.capacity_ ≤ s.buffer_.length
    · have hne : s.buffer_ ≠ [] := by
        intro e; rw [e] at hfull; simp at hfull; omega
      have hb : s.buffer_ = s.buffer_.dropLast ++ [s.buffer_.getLast hne] :=
        (List.dropLast_append_getLast hne).symm
      have hev := h.evict hb
      have hk1 : key ∉ s.buffer_.dropLast.map (fun n => n.first) := by
        intro hm
        apply hk
        simp only [State.keys]
        obtain ⟨m, hm1, rfl⟩ := List.mem_map.1 hm
        exact List.mem_map.2 ⟨m, List.mem_of_mem_dropLast hm1, rfl⟩
      have hlen : s.buffer_.dropLast.length < s.capacity_ := by
        have := h.cap
        have hl : 0 < s.buffer_.length := List.length_pos.2 hne
        simp only [List.length_dropLast]
        omega
      refine ⟨_, put_miss_full h hk hb hfull value, hev.insert hk1 hlen value, rfl, ?_⟩
      rw [if_neg hk, if_pos hfull]
      simp [State.entries, List.map_dropLast]
    · have hlt : s.buffer_.length < s.capacity_ := by omega
      refine ⟨_, put_miss_room h hk hlt value, h.insert hk hlt value, rfl, ?_⟩
      rw [if_neg hk, if_neg hfull]
      simp [State.entries]

/-- A `put` that completes keeps the invariant and the capacity, whatever the capacity. -/
theorem put_wf {s s1 : State} (h : s.WF) {key : Int} {value : String}
    (hp : put s key value = some s1) : s1.WF ∧ s1.capacity_ = s.capacity_ := by
  by_cases hc : 1 ≤ s.capacity_
  · obtain ⟨s2, h2, hwf, hcap, -⟩ := put_spec h hc key value
    rw [h2] at hp
    cases hp
    exact ⟨hwf, hcap⟩
  · have hcap := h.cap
    have hnil : s.buffer_ = [] := List.length_eq_zero.1 (by omega)
    have hf : UMap.find s.cache_map_ key = none :=
      (h.index_find_eq_none_iff key).2 (by simp [State.keys, hnil])
    simp [put, hf, hnil, StdList.back] at hp
    omega

theorem get_spec {s : State} (h : s.WF) (key : Int) :
    (key ∉ s.keys ∧ get s key = some (GetResult.out_of_range, s)) ∨
    (∃ v, (key, v) ∈ s.entries ∧ get s key = some (GetResult.value v, s)) := by
  by_cases hk : key ∈ s.keys
  · obtain ⟨l1, n, l2, hb, rfl⟩ := State.split_of_mem_keys hk
    exact Or.inr ⟨n.second, State.mem_entries_of_split hb, get_hit h hb⟩
  · exact Or.inl ⟨hk, get_miss h hk⟩

end FIFOBuffer

namespace LRUCache

theorem lru_put_spec {s : State} (h : s.WF) (hc : 1 ≤ s.capacity_) (key : Int)
    (value : String) :
    ∃ s1, put s key value = some s1 ∧ s1.WF ∧ s1.capacity_ = s.capacity_ ∧
      s1.entries =
        if key ∈ s.keys then
          (key, value) :: s.entries.filter (fun e => decide (e.1 ≠ key))
        else if s.capacity_ ≤ s.buffer_.length then (key, value) :: s.entries.dropLast
        else (key, value) :: s.entries :=
  FIFOBuffer.put_spec h hc key value

theorem lru_put_wf {s s1 : State} (h : s.WF) {key : Int} {value : String}
    (hp : put s key value = some s1) : s1.WF ∧ s1.capacity_ = s.capacity_ :=
  FIFOBuffer.put_wf h hp

theorem lru_get_spec {s : State} (h : s.WF) (key : Int) :
    (key ∉ s.keys ∧ get s key = some (GetResult.out_of_range, s)) ∨
    (∃ v s1, (key, v) ∈ s.entries ∧ get s key = some (GetResult.value v, s1) ∧
      s1.WF ∧ s1.capacity_ = s.capacity_ ∧ s1.cache_map_ = s.cache_map_ ∧
      s1.entries = (key, v) :: s.entries.filter (fun e => decide (e.1 ≠ key))) := by
  by_cases hk : key ∈ s.keys
  · obtain ⟨l1, n, l2, hb, rfl⟩ := State.split_of_mem_keys hk
    refine Or.inr ⟨n.second, _, State.mem_entries_of_split hb, lru_get_hit h hb, ?_, rfl, rfl, ?_⟩
    · exact h.touch hb n.second
    · exact h.entries_touch hb n.second
  · exact Or.inl ⟨hk, lru_get_miss h hk⟩

end LRUCache

/-! Sequences of calls -/

namespace FIFOBuffer

theorem step_wf {s s1 : State} (h : s.WF) {op : Op} (hs : step s op = some s1) :
    s1.WF ∧ s1.capacity_ = s.capacity_ := by
  cases op with
  | put key value => exact put_wf h hs
  | get key =>
    rcases get_spec h key with ⟨-, hg⟩ | ⟨v, -, hg⟩ <;>
    · simp only [step, hg, Option.map_some', Option.some.injEq] at hs
      subst hs
      exact ⟨h, rfl⟩

theorem step_total {s : State} (h : s.WF) (hc : 1 ≤ s.capacity_) (op : Op) :
    ∃ s1, step s op = some s1 := by
  cases op with
  | put key value =>
    obtain ⟨s1, hp, -⟩ := put_spec h hc key value
    exact ⟨s1, hp⟩
  | get key =>
    rcases get_spec h key with ⟨-, hg⟩ | ⟨v, -, hg⟩ <;> exact ⟨s, by simp [step, hg]⟩

theorem run_wf {s s1 : State} (h : s.WF) {ops : List Op} (hr : run s ops = some s1) :
    s1.WF ∧ s1.capacity_ = s.capacity_ := by
  induction ops generalizing s with
  | nil =>
    simp only [run, Option.some.injEq] at hr
    subst hr
    exact ⟨h, rfl⟩
  | cons op ops ih =>
    simp only [run] at hr
    cases hs : step s op with
    | none => simp [hs] at hr
    | some s2 =>
      simp only [hs] at hr
      obtain ⟨h2, c2⟩ := step_wf h hs
      obtain ⟨h1, c1⟩ := ih h2 hr
      exact ⟨h1, c1.trans c2⟩

theorem run_total {s : State} (h : s.WF) (hc : 1 ≤ s.capacity_) (ops : List Op) :
    ∃ s1, run s ops = some s1 := by
  induction ops generalizing s with
  | nil => exact ⟨s, rfl⟩
  | cons op ops ih =>
    obtain ⟨s2, hs⟩ := step_total h hc op
    obtain ⟨h2, c2⟩ := step_wf h hs
    obtain ⟨s1, h1⟩ := ih h2 (by omega)
    exact ⟨s1, by simp [run, hs, h1]⟩

theorem reachable_wf {c : Nat} {s : State} (hr : Reachable c s) :
    s.WF ∧ s.capacity_ = c := by
  obtain ⟨ops, hops⟩ := hr
  exact run_wf (State.WF.of_new c) hops

end FIFOBuffer

namespace LRUCache

theorem lru_step_wf {s s1 : State} (h : s.WF) {op : Op} (hs : step s op = some s1) :
    s1.WF ∧ s1.capacity_ = s.capacity_ := by
  cases op with
  | put key value => exact lru_put_wf h hs
  | get key =>
    rcases lru_get_spec h key with ⟨-, hg⟩ | ⟨v, s2, -, hg, hwf, hcap, -⟩
    · simp only [step, hg, Option.map_some', Option.some.injEq] at hs
      subst hs
      exact ⟨h, rfl⟩
    · simp only [step, hg, Option.map_some', Option.some.injEq] at hs
      subst hs
      exact ⟨hwf, hcap⟩

theorem lru_step_total {s : State} (h : s.WF) (hc : 1 ≤ s.capacity_) (op : Op) :
    ∃ s1, step s op = some s1 := by
  cases op with
  | put key value =>
    obtain ⟨s1, hp, -⟩ := lru_put_spec h hc key value
    exact ⟨s1, hp⟩
  | get key =>
    rcases lru_get_spec h key with ⟨-, hg⟩ | ⟨v, s2, -, hg, -⟩
    · exact ⟨s, by simp [step, hg]⟩
    · exact ⟨s2, by simp [step, hg]⟩

theorem lru_run_wf {s s1 : State} (h : s.WF) {ops : List Op} (hr : run s ops = some s1) :
    s1.WF ∧ s1.capacity_ = s.capacity_ := by
  induction ops generalizing s with
  | nil =>
    simp only [run, Option.some.injEq] at hr
    subst hr
    exact ⟨h, rfl⟩
  | cons op ops ih =>
    simp only [run] at hr
    cases hs : step s op with
    | none => simp [hs] at hr
    | some s2 =>
      simp only [hs] at hr
      obtain ⟨h2, c2⟩ := lru_step_wf h hs
      obtain ⟨h1, c1⟩ := ih h2 hr
      exact ⟨h1, c1.trans c2⟩

theorem lru_run_total {s : State} (h : s.WF) (hc : 1 ≤ s.capacity_) (ops : List Op) :
    ∃ s1, run s ops = some s1 := by
  induction ops generalizing s with
  | nil => exact ⟨s, rfl⟩
  | cons op ops ih =>
    obtain ⟨s2, hs⟩ := lru_step_total h hc op
    obtain ⟨h2, c2⟩ := lru_step_wf h hs
    obtain ⟨s1, h1⟩ := ih h2 (by omega)
    exact ⟨s1, by simp [run, hs, h1]⟩

theorem lru_reachable_wf {c : Nat} {s : State} (hr : Reachable c s) :
    s.WF ∧ s.capacity_ = c := by
  obtain ⟨ops, hops⟩ := hr
  exact lru_run_wf (State.WF.of_new c) hops

end LRUCache

theorem FIFOBuffer.put_head {s : State} (h : s.WF) (hc : 1 ≤ s.capacity_) (key : Int)
    (value : String) :
    ∃ s1, FIFOBuffer.put s key value = some s1 ∧ s1.WF ∧ s1.capacity_ = s.capacity_ ∧
      (key, value) ∈ s1.entries := by
  obtain ⟨s1, hp, hwf, hcap, he⟩ := FIFOBuffer.put_spec h hc key value
  refine ⟨s1, hp, hwf, hcap, ?_⟩
  rw [he]
  split_ifs <;> simp

/-! Keys only enter through `put` -/

theorem FIFOBuffer.put_keys_subset {s s1 : State} (h : s.WF) {key : Int} {value : String}
    (hp : FIFOBuffer.put s key value = some s1) :
    ∀ k ∈ s1.keys, k = key ∨ k ∈ s.keys := by
  intro k hk
  by_cases hc : 1 ≤ s.capacity_
  · obtain ⟨t, ht, -, -, he⟩ := FIFOBuffer.put_spec h hc key value
    rw [ht] at hp
    cases hp
    rw [State.keys_eq_entries, he] at hk
    rw [State.keys_eq_entries]
    split_ifs at hk <;> simp only [List.map_cons, List.mem_cons] at hk <;>
      rcases hk with rfl | hk
    · exact Or.inl rfl
    · obtain ⟨e, he, rfl⟩ := List.mem_map.1 hk
      exact Or.inr (List.mem_map.2 ⟨e, (List.mem_filter.1 he).1, rfl⟩)
    · exact Or.inl rfl
    · obtain ⟨e, he, rfl⟩ := List.mem_map.1 hk
      exact Or.inr (List.mem_map.2 ⟨e, List.mem_of_mem_dropLast he, rfl⟩)
    · exact Or.inl rfl
    · exact Or.inr hk
  · obtain ⟨hwf1, hcap1⟩ := FIFOBuffer.put_wf h hp
    have h1 := hwf1.cap
    have h2 : 0 < s1.keys.length := List.length_pos_of_mem hk
    rw [State.length_keys] at h2
    omega

theorem FIFOBuffer.run_keys_subset {s s1 : State} (h : s.WF) {ops : List Op}
    (hr : FIFOBuffer.run s ops = some s1) :
    ∀ k ∈ s1.keys, k ∈ s.keys ∨ ∃ v, Op.put k v ∈ ops := by
  induction ops generalizing s with
  | nil =>
    simp only [FIFOBuffer.run, Option.some.injEq] at hr
    subst hr
    exact fun k hk => Or.inl hk
  | cons op ops ih =>
    simp only [FIFOBuffer.run] at hr
    cases hs : FIFOBuffer.step s op with
    | none => simp [hs] at hr
    | some s2 =>
      simp only [hs] at hr
      intro k hk
      rcases ih (FIFOBuffer.step_wf h hs).1 hr k hk with h2 | ⟨v, hv⟩
      · cases op with
        | put key value =>
          rcases FIFOBuffer.put_keys_subset h hs k h2 with rfl | h3
          · exact Or.inr ⟨value, List.mem_cons_self _ _⟩
          · exact Or.inl h3
        | get key =>
          have hg : ∃ r, FIFOBuffer.get s key = some (r, s) := by
            rcases FIFOBuffer.get_spec h key with ⟨-, hg⟩ | ⟨v, -, hg⟩ <;> exact ⟨_, hg⟩
          obtain ⟨r, hg⟩ := hg
          simp only [FIFOBuffer.step, hg, Option.map_some', Option.some.injEq] at hs
          subst hs
          exact Or.inl h2
      · exact Or.inr ⟨v, List.mem_cons_of_mem _ hv⟩

theorem LRUCache.lru_run_keys_subset {s s1 : State} (h : s.WF) {ops : List Op}
    (hr : LRUCache.run s ops = some s1) :
    ∀ k ∈ s1.keys, k ∈ s.keys ∨ ∃ v, Op.put k v ∈ ops := by
  induction ops generalizing s with
  | nil =>
    simp only [LRUCache.run, Option.some.injEq] at hr
    subst hr
    exact fun k hk => Or.inl hk
  | cons op ops ih =>
    simp only [LRUCache.run] at hr
    cases hs : LRUCache.step s op with
    | none => simp [hs] at hr
    | some s2 =>
      simp only [hs] at hr
      intro k hk
      rcases ih (LRUCache.lru_step_wf h hs).1 hr k hk with h2 | ⟨v, hv⟩
      · cases op with
        | put key value =>
          rcases FIFOBuffer.put_keys_subset h hs k h2 with rfl | h3
          · exact Or.inr ⟨value, List.mem_cons_self _ _⟩
          · exact Or.inl h3
        | get key =>
          rcases LRUCache.lru_get_spec h key with ⟨-, hg⟩ | ⟨v, t1, hv, hg, -, -, -, he⟩
          · simp only [LRUCache.step, hg, Option.map_some', Option.some.injEq] at hs
            subst hs
            exact Or.inl h2
          · simp only [LRUCache.step, hg, Option.map_some', Option.some.injEq] at hs
            subst hs
            rw [State.keys_eq_entries, he, List.map_cons, List.mem_cons] at h2
            rcases h2 with rfl | h2
            · exact Or.inl (by
                rw [State.keys_eq_entries]; exact List.mem_map.2 ⟨_, hv, rfl⟩)
            · obtain ⟨e, he, rfl⟩ := List.mem_map.1 h2
              exact Or.inl (by
                rw [State.keys_eq_entries]
                exact List.mem_map.2 ⟨e, (List.mem_filter.1 he).1, rfl⟩)
      · exact Or.inr ⟨v, List.mem_cons_of_mem _ hv⟩

/-! FIFO: `get` changes nothing, eviction follows insertion order -/

theorem List.take_append_take_same {α : Type} (a b : List α) (c : Nat) :
    (a ++ b.take c).take c = (a ++ b).take c := by
  rw [List.take_append_eq_append_take, List.take_append_eq_append_take, List.take_take]
  congr 2
  omega

theorem List.cons_take_of_length_le {α : Type} (x : α) (es : List α) (c : Nat)
    (hc : 1 ≤ c) (hle : es.length ≤ c) :
    (if c ≤ es.length then x :: es.dropLast else x :: es) = (x :: es).take c := by
  obtain ⟨d, rfl⟩ : ∃ d, c = d + 1 := ⟨c - 1, by omega⟩
  split_ifs with h
  · have : es.length - 1 = d := by omega
    rw [List.take_succ_cons, List.dropLast_eq_take, this]
  · rw [List.take_of_length_le (by simp; omega)]

namespace FIFOBuffer

theorem get_of_mem {s : State} (h : s.WF) {key : Int} {v : String}
    (hv : (key, v) ∈ s.entries) : get s key = some (GetResult.value v, s) := by
  rcases get_spec h key with ⟨hk, -⟩ | ⟨w, hw, hg⟩
  · exact absurd (by rw [State.keys_eq_entries]; exact List.mem_map.2 ⟨_, hv, rfl⟩) hk
  · rw [hg, h.value_unique hw hv]

/-- On a state satisfying the invariant the `get` calls of a sequence can be
dropped without changing the state the sequence leads to. -/
theorem run_filter_put {s : State} (h : s.WF) (ops : List Op) :
    run s ops = run s (ops.filter Op.isPut) := by
  induction ops generalizing s with
  | nil => rfl
  | cons op ops ih =>
    cases op with
    | put key value =>
      simp only [List.filter_cons, Op.isPut, if_true, run, step]
      cases hp : put s key value with
      | none => rfl
      | some s1 => exact ih (put_wf h hp).1
    | get key =>
      have hs : step s (Op.get key) = some s := by
        rcases get_spec h key with ⟨-, hg⟩ | ⟨v, -, hg⟩ <;> simp [step, hg]
      simp only [List.filter_cons, Op.isPut, run, hs]
      exact ih h

/-- Putting pairwise distinct absent keys one after the other: the ordering is
the new pairs, latest first, followed by the old ones, cut at the capacity. -/
theorem run_puts {s : State} (h : s.WF) (hc : 1 ≤ s.capacity_) (kvs : List (Int × String))
    (hnd : (kvs.map Prod.fst).Nodup) (hdis : ∀ k ∈ kvs.map Prod.fst, k ∉ s.keys) :
    ∃ s1, run s (putsOf kvs) = some s1 ∧ s1.WF ∧ s1.capacity_ = s.capacity_ ∧
      s1.entries = (kvs.reverse ++ s.entries).take s.capacity_ := by
  induction kvs generalizing s with
  | nil =>
    refine ⟨s, rfl, h, rfl, ?_⟩
    rw [List.reverse_nil, List.nil_append, List.take_of_length_le]
    rw [State.length_entries]; exact h.cap
  | cons kv rest ih =>
    obtain ⟨k, v⟩ := kv
    simp only [List.map_cons, List.nodup_cons] at hnd
    have hk : k ∉ s.keys := hdis k (by simp)
    obtain ⟨s1, hp, hwf1, hcap1, he1⟩ := put_spec h hc k v
    rw [if_neg hk] at he1
    have he1' : s1.entries = ((k, v) :: s.entries).take s.capacity_ := by
      rw [he1, ← State.length_entries]
      exact List.cons_take_of_length_le _ _ _ hc (by rw [State.length_entries]; exact h.cap)
    have hdis1 : ∀ k' ∈ rest.map Prod.fst, k' ∉ s1.keys := by
      intro k' hk' hm
      rw [State.keys_eq_entries, he1'] at hm
      obtain ⟨e, he, rfl⟩ := List.mem_map.1 hm
      rcases List.mem_cons.1 (List.mem_of_mem_take he) with rfl | he
      · exact hnd.1 hk'
      · exact hdis e.1 (by simp [hk']) (by
          rw [State.keys_eq_entries]; exact List.mem_map.2 ⟨e, he, rfl⟩)
    obtain ⟨s2, hr, hwf2, hcap2, he2⟩ := ih hwf1 (by omega) hnd.2 hdis1
    refine ⟨s2, ?_, hwf2, hcap2.trans hcap1, ?_⟩
    · simp only [putsOf, List.map_cons, run, step, hp]
      exact hr
    · rw [he2, he1', hcap1, List.take_append_take_same]
      simp

end FIFOBuffer

/-! Moving an entry to the front, dropping the last entry -/

theorem filter_ne_split {es : List (Int × String)} (hnd : (es.map Prod.fst).Nodup)
    {k : Int} {v : String} (h : (k, v) ∈ es) :
    ∃ a b, es = a ++ (k, v) :: b ∧ es.filter (fun e => decide (e.1 ≠ k)) = a ++ b := by
  obtain ⟨a, b, rfl⟩ := List.append_of_mem h
  obtain ⟨ha, hb⟩ := nodup_mid (fun e : Int × String => e.1) hnd
  have e1 : ∀ l : List (Int × String), (∀ m ∈ l, m.1 ≠ k) →
      l.filter (fun e => decide (e.1 ≠ k)) = l := by
    intro l hl
    rw [List.filter_eq_self]
    intro p hp
    simpa using hl p hp
  refine ⟨a, b, rfl, ?_⟩
  rw [List.filter_append, List.filter_cons, e1 a ha, e1 b hb]
  simp

/-- Facts about the list `(k, v) :: es.filter (·.1 ≠ k)` for a key `k` of `es`. -/
theorem touch_facts {es : List (Int × String)} (hnd : (es.map Prod.fst).Nodup)
    {k : Int} {v0 : String} (h : (k, v0) ∈ es) (v : String) :
    ((k, v) :: es.filter (fun e => decide (e.1 ≠ k))).length = es.length ∧
    (∀ j, j ∈ ((k, v) :: es.filter (fun e => decide (e.1 ≠ k))).map Prod.fst
      ↔ j ∈ es.map Prod.fst) ∧
    (∀ j w, j ≠ k → ((j, w) ∈ (k, v) :: es.filter (fun e => decide (e.1 ≠ k))
      ↔ (j, w) ∈ es)) ∧
    (v = v0 → List.Perm ((k, v) :: es.filter (fun e => decide (e.1 ≠ k))) es) := by
  obtain ⟨a, b, hes, hf⟩ := filter_ne_split hnd h
  rw [hf]
  refine ⟨?_, ?_, ?_, ?_⟩
  · rw [hes]; simp; omega
  · intro j
    rw [hes]
    simp only [List.map_cons, List.map_append, List.mem_cons, List.mem_append]
    tauto
  · intro j w hj
    rw [hes]
    have : (j, w) ≠ (k, v) := fun e => hj (Prod.mk.inj e).1
    have : (j, w) ≠ (k, v0) := fun e => hj (Prod.mk.inj e).1
    simp only [List.mem_cons, List.mem_append]
    tauto
  · rintro rfl
    rw [hes]
    exact List.perm_middle.symm

theorem not_mem_dropLast_iff {α : Type} {l : List α} (hnd : l.Nodup) {b : α}
    (hb : l.getLast? = some b) {j : α} (hj : j ∈ l) : j ∉ l.dropLast ↔ j = b := by
  have hl : l.dropLast ++ [b] = l := List.dropLast_append_getLast? b hb
  rw [← hl] at hnd hj
  simp only [List.nodup_append, List.nodup_cons, List.Disjoint, List.mem_singleton] at hnd
  simp only [List.mem_append, List.mem_singleton] at hj
  constructor
  · intro hn
    rcases hj with hj | hj
    · exact absurd hj hn
    · exact hj
  · rintro rfl hm
    exact hnd.2.2 hm rfl

theorem State.WF.entries_nodup {s : State} (h : s.WF) : (s.entries.map Prod.fst).Nodup := by
  rw [← State.keys_eq_entries]; exact h.key_nodup

theorem State.mem_keys_of_mem_entries {s : State} {k : Int} {v : String}
    (h : (k, v) ∈ s.entries) : k ∈ s.keys := by
  rw [State.keys_eq_entries]; exact List.mem_map.2 ⟨_, h, rfl⟩

theorem State.exists_entry_of_mem_keys {s : State} {k : Int} (h : k ∈ s.keys) :
    ∃ v, (k, v) ∈ s.entries := by
  rw [State.keys_eq_entries] at h
  obtain ⟨e, he, rfl⟩ := List.mem_map.1 h
  exact ⟨e.2, he⟩

namespace LRUCache

theorem lru_get_of_mem {s : State} (h : s.WF) {key : Int} {v : String}
    (hv : (key, v) ∈ s.entries) :
    ∃ s1, get s key = some (GetResult.value v, s1) ∧ s1.WF ∧ s1.capacity_ = s.capacity_ ∧
      s1.cache_map_ = s.cache_map_ ∧
      s1.entries = (key, v) :: s.entries.filter (fun e => decide (e.1 ≠ key)) := by
  rcases lru_get_spec h key with ⟨hk, -⟩ | ⟨w, s1, hw, hg, hrest⟩
  · exact absurd (State.mem_keys_of_mem_entries hv) hk
  · have e := h.value_unique hw hv
    subst e
    exact ⟨s1, hg, hrest⟩

end LRUCache

/-! `put` on a key that is present, and the only way a key disappears -/

theorem FIFOBuffer.put_existing {s : State} (h : s.WF) {key : Int} (hk : key ∈ s.keys)
    (value : String) :
    ∃ s1, FIFOBuffer.put s key value = some s1 ∧ s1.WF ∧
      s1.buffer_.length = s.buffer_.length ∧
      s1.cache_map_.length = s.cache_map_.length ∧
      (∀ k, k ∈ s1.keys ↔ k ∈ s.keys) ∧
      s1.entries = (key, value) :: s.entries.filter (fun e => decide (e.1 ≠ key)) ∧
      (∀ k w, k ≠ key → ((k, w) ∈ s1.entries ↔ (k, w) ∈ s.entries)) := by
  have hc : 1 ≤ s.capacity_ := by
    have h1 := h.cap
    have h2 : 0 < s.keys.length := List.length_pos_of_mem hk
    rw [State.length_keys] at h2
    omega
  obtain ⟨s1, hp, hwf1, -, he⟩ := FIFOBuffer.put_spec h hc key value
  rw [if_pos hk] at he
  obtain ⟨v0, hv0⟩ := State.exists_entry_of_mem_keys hk
  obtain ⟨hlen, hkeys, hothers, -⟩ := touch_facts h.entries_nodup hv0 value
  rw [← he] at hlen hkeys hothers
  simp only [← State.keys_eq_entries] at hkeys
  have hl : s1.buffer_.length = s.buffer_.length := by
    rw [← State.length_entries, hlen, State.length_entries]
  refine ⟨s1, hp, hwf1, hl, ?_, hkeys, he, hothers⟩
  rw [hwf1.length_index, h.length_index, hl]

theorem FIFOBuffer.put_removes {s s1 : State} (h : s.WF) {key : Int} {value : String}
    (hp : FIFOBuffer.put s key value = some s1) {k : Int} (hk : k ∈ s.keys)
    (hk1 : k ∉ s1.keys) :
    key ∉ s.keys ∧ s.buffer_.length = s.capacity_ ∧ s.keys.getLast? = some k ∧
      ∀ j ∈ s.keys, j ∉ s1.keys → j = k := by
  have hc : 1 ≤ s.capacity_ := by
    have h1 := h.cap
    have h2 : 0 < s.keys.length := List.length_pos_of_mem hk
    rw [State.length_keys] at h2
    omega
  by_cases hkey : key ∈ s.keys
  · obtain ⟨t1, hp1, -, -, -, hkeys, -⟩ := FIFOBuffer.put_existing h hkey value
    rw [hp1] at hp
    cases hp
    exact absurd ((hkeys k).2 hk) hk1
  · obtain ⟨t1, hp1, -, -, he⟩ := FIFOBuffer.put_spec h hc key value
    rw [hp1] at hp
    cases hp
    rw [if_neg hkey] at he
    by_cases hfull : s.capacity_ ≤ s.buffer_.length
    · rw [if_pos hfull] at he
      have hkeys1 : s1.keys = key :: s.keys.dropLast := by
        rw [State.keys_eq_entries, he, State.keys_eq_entries, List.map_cons,
          List.map_dropLast]
      have hne : s.keys ≠ [] := List.ne_nil_of_mem hk
      have hback : s.keys.getLast? = some (s.keys.getLast hne) :=
        List.getLast?_eq_getLast _ hne
      have hdrop : ∀ j, j ∉ s1.keys → j ∉ s.keys.dropLast := by
        intro j hj hm
        apply hj
        rw [hkeys1]
        exact List.mem_cons_of_mem _ hm
      have hkb : k = s.keys.getLast hne :=
        (not_mem_dropLast_iff h.key_nodup hback hk).1 (hdrop k hk1)
      refine ⟨hkey, le_antisymm h.cap hfull, by rw [hback, hkb], ?_⟩
      intro j hj hj1
      rw [hkb]
      exact (not_mem_dropLast_iff h.key_nodup hback hj).1 (hdrop j hj1)
    · rw [if_neg hfull] at he
      have : k ∈ s1.keys := by
        rw [State.keys_eq_entries, he, List.map_cons, ← State.keys_eq_entries]
        exact List.mem_cons_of_mem _ hk
      exact absurd this hk1

/-! Locators -/

/-- In a state satisfying the invariant, the iterator the index holds for a key
designates a node of the ordering, the only one with that key. -/
theorem State.WF.locator {s : State} (h : s.WF) {key : Int} {it : Iter}
    (hf : UMap.find s.cache_map_ key = some it) :
    ∃ n, StdList.deref s.buffer_ it = some n ∧ n ∈ s.buffer_ ∧ n.first = key ∧
      n.addr = it ∧ ∀ m ∈ s.buffer_, m.first = key → m = n := by
  obtain ⟨n, hn, hk, ha⟩ := (h.index_find_eq_some_iff key it).1 hf
  obtain ⟨l1, l2, hb⟩ := List.append_of_mem hn
  have hnd := h.addr_nodup
  rw [hb] at hnd
  obtain ⟨a1, -⟩ := nodup_mid (fun n : ListNode => n.addr) hnd
  refine ⟨n, ?_, hn, hk, ha, ?_⟩
  · rw [hb, ← ha]
    exact StdList.deref_mid l1 l2 n a1
  · intro m hm hmk
    exact List.inj_on_of_nodup_map h.key_nodup hm hn (hmk.trans hk.symm)

theorem State.WF.agreement {s : State} (h : s.WF) :
    s.cache_map_.length = s.buffer_.length ∧
    (∀ k, (∃ it, UMap.find s.cache_map_ k = some it) ↔ k ∈ s.keys) ∧
    (∀ k it, UMap.find s.cache_map_ k = some it →
      ∃ n, StdList.deref s.buffer_ it = some n ∧ n ∈ s.buffer_ ∧ n.first = k ∧
        ∀ m ∈ s.buffer_, m.first = k → m = n) := by
  refine ⟨h.length_index, ?_, ?_⟩
  · intro k
    constructor
    · rintro ⟨it, hf⟩
      by_contra hk
      rw [(h.index_find_eq_none_iff k).2 hk] at hf
      cases hf
    · intro hk
      cases hf : UMap.find s.cache_map_ k with
      | none => exact absurd hk ((h.index_find_eq_none_iff k).1 hf)
      | some it => exact ⟨it, rfl⟩
  · intro k it hf
    obtain ⟨n, h1, h2, h3, -, h5⟩ := h.locator hf
    exact ⟨n, h1, h2, h3, h5⟩

/-! The two classes side by side -/

theorem get_result_eq (s : State) (key : Int) :
    (FIFOBuffer.get s key).map Prod.fst = (LRUCache.get s key).map Prod.fst := by
  unfold FIFOBuffer.get LRUCache.get
  cases hf : UMap.find s.cache_map_ key with
  | none => rfl
  | some it =>
    cases hd : StdList.deref s.buffer_ it with
    | none => simp [StdList.spliceFront, hd]
    | some n =>
      have ha : n.addr = it := by
        have := List.find?_some hd
        simpa using this
      have hd1 : StdList.deref (n :: s.buffer_.eraseP (fun m => decide (m.addr = it))) it
          = some n := by
        simp [StdList.deref, ha]
      simp [StdList.spliceFront, hd, hd1]

theorem run_puts_eq (s : State) (kvs : List (Int × String)) :
    FIFOBuffer.run s (putsOf kvs) = LRUCache.run s (putsOf kvs) := by
  induction kvs generalizing s with
  | nil => rfl
  | cons kv rest ih =>
    simp only [putsOf, List.map_cons, FIFOBuffer.run, LRUCache.run, FIFOBuffer.step,
      LRUCache.step]
    rw [LRUCache.put_eq_fifo]
    cases FIFOBuffer.put s kv.1 kv.2 with
    | none => rfl
    | some s1 => exact ih s1

theorem put_new_zero (key : Int) (value : String) :
    FIFOBuffer.put (FIFOBuffer.new 0) key value = none := by
  simp [FIFOBuffer.put, FIFOBuffer.new, UMap.find, StdList.back]

theorem FIFOBuffer.run_new_zero {ops : List Op} {s : State}
    (hr : FIFOBuffer.run (FIFOBuffer.new 0) ops = some s) : s = FIFOBuffer.new 0 := by
  induction ops with
  | nil =>
    simp only [FIFOBuffer.run, Option.some.injEq] at hr
    exact hr.symm
  | cons op ops ih =>
    cases op with
    | put key value =>
      simp [FIFOBuffer.run, FIFOBuffer.step, put_new_zero] at hr
    | get key =>
      have hg : FIFOBuffer.step (FIFOBuffer.new 0) (Op.get key) = some (FIFOBuffer.new 0) := by
        simp [FIFOBuffer.step, FIFOBuffer.get, FIFOBuffer.new, UMap.find]
      simp only [FIFOBuffer.run, hg] at hr
      exact ih hr

theorem LRUCache.lru_run_new_zero {ops : List Op} {s : State}
    (hr : LRUCache.run (LRUCache.new 0) ops = some s) : s = LRUCache.new 0 := by
  induction ops with
  | nil =>
    simp only [LRUCache.run, Option.some.injEq] at hr
    exact hr.symm
  | cons op ops ih =>
    cases op with
    | put key value =>
      have hp : LRUCache.put (LRUCache.new 0) key value = none := put_new_zero key value
      simp [LRUCache.run, LRUCache.step, hp] at hr
    | get key =>
      have hg : LRUCache.step (LRUCache.new 0) (Op.get key) = some (LRUCache.new 0) := by
        simp [LRUCache.step, LRUCache.get, LRUCache.new, UMap.find]
      simp only [LRUCache.run, hg] at hr
      exact ih hr

/-- A `put` that completes leaves at least one node in the list, whatever the
state it started from: nothing is removed after the insertion. -/
theorem put_buffer_ne_nil {s s1 : State} {key : Int} {value : String}
    (hp : FIFOBuffer.put s key value = some s1) : s1.buffer_ ≠ [] := by
  unfold FIFOBuffer.put at hp
  split at hp
  · split at hp
    · cases hp
    · split at hp
      · cases hp
      · rename_i b2 hs
        cases hp
        simp only [StdList.spliceFront] at hs
        split at hs
        · cases hs
        · cases hs
          simp
  · split at hp
    · split at hp
      · cases hp
      · split at hp
        · cases hp
        · cases hp
          simp [StdList.emplace_front]
    · cases hp
      simp [StdList.emplace_front]

/-! The recency list -/

theorem filter_take_of_mem (k : Int) (p : Int → Bool) (hp : ∀ j, p j = true ↔ j ≠ k) :
    ∀ (c : Nat) (T : List Int), k ∈ T.take (c + 1) → T.Nodup →
      (T.filter p).take c = (T.take (c + 1)).filter p := by
  intro c T
  induction T generalizing c with
  | nil => intro h; simp at h
  | cons x T ih =>
    intro hk hnd
    rw [List.nodup_cons] at hnd
    by_cases hx : x = k
    · subst hx
      have hpx : ¬ p x = true := fun h => (hp x).1 h rfl
      have e : T.filter p = T := by
        rw [List.filter_eq_self]
        intro j hj
        exact (hp j).2 (fun e => hnd.1 (e ▸ hj))
      have e2 : (T.take c).filter p = T.take c := by
        rw [List.filter_eq_self]
        intro j hj
        exact (hp j).2 (fun e => hnd.1 (e ▸ List.mem_of_mem_take hj))
      rw [List.take_succ_cons, List.filter_cons_of_neg hpx, List.filter_cons_of_neg hpx,
        e, e2]
    · have hpx : p x = true := (hp x).2 hx
      rw [List.take_succ_cons, List.mem_cons] at hk
      rcases hk with hk | hk
      · exact absurd hk.symm hx
      · cases c with
        | zero => simp at hk
        | succ c =>
          rw [List.take_succ_cons, List.filter_cons_of_pos hpx,
            List.filter_cons_of_pos hpx, List.take_succ_cons, ih c hk hnd.2]

theorem filter_take_of_not_mem (k : Int) (p : Int → Bool) (hp : ∀ j, p j = true ↔ j ≠ k) :
    ∀ (c : Nat) (T : List Int), k ∉ T.take c → (T.filter p).take c = T.take c := by
  intro c T
  induction T generalizing c with
  | nil => intro _; simp
  | cons x T ih =>
    intro hk
    cases c with
    | zero => simp
    | succ c =>
      rw [List.take_succ_cons, List.mem_cons, not_or] at hk
      have hpx : p x = true := (hp x).2 (fun e => hk.1 e.symm)
      rw [List.filter_cons_of_pos hpx, List.take_succ_cons, List.take_succ_cons, ih c hk.2]

theorem decide_ne_iff (k j : Int) : decide (j ≠ k) = true ↔ j ≠ k := by simp

theorem touchKey_nodup {k : Int} {T : List Int} (h : T.Nodup) : (touchKey k T).Nodup := by
  unfold touchKey
  rw [List.nodup_cons]
  exact ⟨by simp [List.mem_filter], h.filter _⟩

/-- The first `c` keys of the recency list after a touch of `k`, from its first
`c` keys before: the three cases of `put`. -/
theorem touchKey_take (k : Int) (c : Nat) (hc : 1 ≤ c) (T : List Int) (hnd : T.Nodup) :
    (touchKey k T).take c =
      if k ∈ T.take c then k :: (T.take c).filter (fun j => decide (j ≠ k))
      else if c ≤ (T.take c).length then k :: (T.take c).dropLast
      else k :: T.take c := by
  obtain ⟨d, rfl⟩ : ∃ d, c = d + 1 := ⟨c - 1, by omega⟩
  unfold touchKey
  rw [List.take_succ_cons]
  split_ifs with h1 h2
  · rw [filter_take_of_mem k _ (decide_ne_iff k) d T h1 hnd]
  · have h3 := filter_take_of_not_mem k _ (decide_ne_iff k) (d + 1) T h1
    have h4 : (T.filter (fun j => decide (j ≠ k))).take d = T.take d := by
      have := congrArg (List.take d) h3
      simpa [List.take_take] using this
    rw [h4, List.dropLast_eq_take, List.take_take]
    congr 2
    simp only [List.length_take] at h2 ⊢
    omega
  · have hlen : T.length < d + 1 := by
      simp only [List.length_take] at h2
      omega
    have hT : T.take (d + 1) = T := List.take_of_length_le (by omega)
    rw [hT] at h1 ⊢
    have e : T.filter (fun j => decide (j ≠ k)) = T := by
      rw [List.filter_eq_self]
      intro j hj
      have : j ≠ k := fun e => h1 (e ▸ hj)
      simpa using this
    rw [e, List.take_of_length_le (by omega)]

theorem filter_keys_entries (es : List (Int × String)) (k : Int) :
    (es.filter (fun e => decide (e.1 ≠ k))).map Prod.fst
      = (es.map Prod.fst).filter (fun j => decide (j ≠ k)) := by
  rw [List.filter_map]
  rfl

/-- The keys of the ordering after a `put`, from the keys before. -/
theorem FIFOBuffer.put_keys {s : State} (h : s.WF) (hc : 1 ≤ s.capacity_) (key : Int)
    (value : String) :
    ∃ s1, FIFOBuffer.put s key value = some s1 ∧ s1.WF ∧ s1.capacity_ = s.capacity_ ∧
      s1.keys =
        if key ∈ s.keys then key :: s.keys.filter (fun j => decide (j ≠ key))
        else if s.capacity_ ≤ s.keys.length then key :: s.keys.dropLast
        else key :: s.keys := by
  obtain ⟨s1, hp, hwf, hcap, he⟩ := FIFOBuffer.put_spec h hc key value
  refine ⟨s1, hp, hwf, hcap, ?_⟩
  rw [State.length_keys, State.keys_eq_entries, he, State.keys_eq_entries]
  split_ifs
  · rw [List.map_cons, filter_keys_entries]
  · rw [List.map_cons, List.map_dropLast]
  · rw [List.map_cons]

theorem LRUCache.lru_run_recency {s : State} (h : s.WF) (hc : 1 ≤ s.capacity_)
    (T : List Int) (hT : T.Nodup) (hk : s.keys = T.take s.capacity_) (ops : List Op) :
    ∃ s1, LRUCache.run s ops = some s1 ∧ s1.WF ∧ s1.capacity_ = s.capacity_ ∧
      s1.keys = ((LRUCache.touches s ops).foldl (fun recency k => touchKey k recency) T).take
        s.capacity_ := by
  induction ops generalizing s T with
  | nil => exact ⟨s, rfl, h, rfl, hk⟩
  | cons op ops ih =>
    cases op with
    | put key value =>
      obtain ⟨s1, hp, hwf1, hcap1, hk1⟩ := FIFOBuffer.put_keys h hc key value
      have hp' : LRUCache.put s key value = some s1 := hp
      have hk1' : s1.keys = (touchKey key T).take s1.capacity_ := by
        rw [hk1, hcap1, touchKey_take key _ hc T hT, hk]
      obtain ⟨s2, hr, hwf2, hcap2, hk2⟩ :=
        ih hwf1 (by omega) (touchKey key T) (touchKey_nodup hT) hk1'
      refine ⟨s2, ?_, hwf2, hcap2.trans hcap1, ?_⟩
      · simp only [LRUCache.run, LRUCache.step, hp']
        exact hr
      · simp only [LRUCache.touches, hp', List.foldl_cons]
        rw [hk2, hcap1]
    | get key =>
      rcases LRUCache.lru_get_spec h key with ⟨hmiss, hg⟩ | ⟨v, s1, hv, hg, hwf1, hcap1, -, he⟩
      · obtain ⟨s2, hr, hwf2, hcap2, hk2⟩ := ih h hc T hT hk
        refine ⟨s2, ?_, hwf2, hcap2, ?_⟩
        · simp only [LRUCache.run, LRUCache.step, hg, Option.map_some']
          exact hr
        · simp only [LRUCache.touches, hg]
          exact hk2
      · have hmem : key ∈ s.keys := State.mem_keys_of_mem_entries hv
        have hk1 : s1.keys = (touchKey key T).take s1.capacity_ := by
          rw [hcap1, touchKey_take key _ hc T hT, ← hk, if_pos hmem,
            State.keys_eq_entries, he, List.map_cons, filter_keys_entries,
            ← State.keys_eq_entries]
        obtain ⟨s2, hr, hwf2, hcap2, hk2⟩ :=
          ih hwf1 (by omega) (touchKey key T) (touchKey_nodup hT) hk1
        refine ⟨s2, ?_, hwf2, hcap2.trans hcap1, ?_⟩
        · simp only [LRUCache.run, LRUCache.step, hg, Option.map_some']
          exact hr
        · simp only [LRUCache.touches, hg, List.foldl_cons]
          rw [hk2, hcap1]

/-! Two sum -/

theorem UMap.keys_assign (m : List (Int × Iter)) (key : Int) (it : Iter) (y : Int) :
    y ∈ (UMap.assign m key it).map Prod.fst ↔ y = key ∨ y ∈ m.map Prod.fst := by
  unfold UMap.assign
  cases hf : UMap.find m key with
  | none => simp
  | some v =>
    have hk : key ∈ m.map Prod.fst := by
      by_contra hk
      rw [(UMap.find_eq_none_iff m key).2 hk] at hf
      cases hf
    have e : (m.map (fun p => if p.1 = key then (key, it) else p)).map Prod.fst
        = m.map Prod.fst := by
      rw [List.map_map]
      apply List.map_congr_left
      intro p _
      by_cases hp : p.1 = key <;> simp [hp]
    simp only [e]
    constructor
    · exact Or.inr
    · rintro (rfl | h)
      · exact hk
      · exact h

theorem UMap.find_isSome_iff (m : List (Int × Iter)) (key : Int) :
    (∃ it, UMap.find m key = some it) ↔ key ∈ m.map Prod.fst := by
  constructor
  · rintro ⟨it, hf⟩
    by_contra hk
    rw [(UMap.find_eq_none_iff m key).2 hk] at hf
    cases hf
  · intro hk
    cases hf : UMap.find m key with
    | none => exact absurd hk ((UMap.find_eq_none_iff m key).1 hf)
    | some it => exact ⟨it, rfl⟩

/-- The loop invariant of `hasTwoSum`: with the keys of `numMap` being the
numbers `seen` before, the loop answers `false` exactly when no number seen
before and no earlier number of the rest pairs up with a number of the rest. -/
theorem hasTwoSumLoop_spec (target : Int) (rest : List Int) :
    ∀ (i : Nat) (numMap : List (Int × Nat)) (seen : List Int),
      (∀ y, y ∈ numMap.map Prod.fst ↔ y ∈ seen) →
      (∀ x ∈ rest, INT_MIN ≤ target - x ∧ target - x ≤ INT_MAX) →
      ∃ b, hasTwoSumLoop target rest i numMap = some b ∧
        (b = false ↔ (∀ y ∈ seen, ∀ x ∈ rest, y + x ≠ target) ∧
          rest.Pairwise (fun a b => a + b ≠ target)) := by
  induction rest with
  | nil =>
    intro i numMap seen _ _
    exact ⟨false, rfl, by simp⟩
  | cons x rest ih =>
    intro i numMap seen hmap hno
    have hx : intSub target x = some (target - x) := by
      unfold intSub
      rw [if_pos (hno x (List.mem_cons_self _ _))]
    cases hf : UMap.find numMap (target - x) with
    | some v =>
      refine ⟨true, by simp [hasTwoSumLoop, hx, hf], ?_⟩
      have hmem : target - x ∈ seen :=
        (hmap _).1 ((UMap.find_isSome_iff numMap _).1 ⟨v, hf⟩)
      constructor
      · intro h; cases h
      · rintro ⟨h, -⟩
        exact absurd (by ring) (h (target - x) hmem x (List.mem_cons_self _ _))
    | none =>
      have hnot : ∀ y ∈ seen, y + x ≠ target := by
        intro y hy e
        have : target - x ∈ numMap.map Prod.fst := by
          rw [hmap]
          have : target - x = y := by omega
          rw [this]; exact hy
        exact (UMap.find_eq_none_iff numMap _).1 hf this
      have hmap1 : ∀ y, y ∈ (UMap.assign numMap x i).map Prod.fst ↔ y ∈ x :: seen := by
        intro y
        rw [UMap.keys_assign, hmap, List.mem_cons]
      obtain ⟨b, hb, hiff⟩ := ih (i + 1) (UMap.assign numMap x i) (x :: seen) hmap1
        (fun z hz => hno z (List.mem_cons_of_mem _ hz))
      refine ⟨b, by simp [hasTwoSumLoop, hx, hf, hb], ?_⟩
      rw [hiff, List.pairwise_cons]
      constructor
      · rintro ⟨h1, h2⟩
        refine ⟨?_, fun z hz => h1 x (List.mem_cons_self _ _) z hz, h2⟩
        intro y hy z hz
        rcases List.mem_cons.1 hz with rfl | hz
        · exact hnot y hy
        · exact h1 y (List.mem_cons_of_mem _ hy) z hz
      · rintro ⟨h1, h2, h3⟩
        refine ⟨?_, h3⟩
        intro y hy z hz
        rcases List.mem_cons.1 hy with rfl | hy
        · exact h2 z hz
        · exact h1 y hy z (List.mem_cons_of_mem _ hz)

/-! Maximum path sum: the recursion without a cache -/

theorem wellRanked_ranked {g : Heap} {rank : Nat → Nat} (h : wellRanked g rank = true) :
    Ranked g rank := by
  intro a n hn b hb
  have ha : a < g.length := by
    by_contra hlt
    rw [List.getElem?_eq_none (by omega)] at hn
    cases hn
  unfold wellRanked at h
  rw [List.all_eq_true] at h
  have h1 := h a (List.mem_range.2 ha)
  simp only [hn, List.all_eq_true] at h1
  have h2 := h1 (some b) hb
  simpa using h2

theorem maxPathSumPlain_null (g : Heap) (fuel : Nat) :
    maxPathSumPlain g fuel none = Outcome.ok 0 := by
  cases fuel <;> rfl

theorem plainLoop_congr (call1 call2 : Option Nat → Outcome Int) (cs : List (Option Nat))
    (h : ∀ c ∈ cs, call1 c = call2 c) (m : Int) :
    plainLoop call1 cs m = plainLoop call2 cs m := by
  induction cs generalizing m with
  | nil => rfl
  | cons c cs ih =>
    have hc := h c (List.mem_cons_self _ _)
    have ih1 := fun m => ih (fun d hd => h d (List.mem_cons_of_mem _ hd)) m
    simp only [plainLoop, hc]
    cases call2 c with
    | ok r => exact ih1 _
    | undefined => rfl
    | outOfFuel => rfl

/-- With fuel above the rank the plain recursion does not depend on the fuel. -/
theorem maxPathSumPlain_fuel {g : Heap} {rank : Nat → Nat} (hr : Ranked g rank) :
    ∀ (f1 f2 a : Nat), rank a < f1 → rank a < f2 →
      maxPathSumPlain g f1 (some a) = maxPathSumPlain g f2 (some a) := by
  intro f1
  induction f1 with
  | zero => intro f2 a h; omega
  | succ f1 ih =>
    intro f2 a h1 h2
    obtain ⟨f2, rfl⟩ : ∃ d, f2 = d + 1 := ⟨f2 - 1, by omega⟩
    simp only [maxPathSumPlain]
    cases hn : g[a]? with
    | none => rfl
    | some n =>
      have hcs : ∀ c ∈ n.children, maxPathSumPlain g f1 c = maxPathSumPlain g f2 c := by
        intro c hc
        cases c with
        | none => rw [maxPathSumPlain_null, maxPathSumPlain_null]
        | some b =>
          have hb := (hr a n hn b hc).2
          exact ih f2 b (by omega) (by omega)
      simp only [plainLoop_congr _ _ _ hcs]

/-! Maximum path sum: the cache -/

theorem NodeCache.find_map_assign (cache : List (Nat × Int)) (a : Nat) (r : Int) (m : Nat) :
    NodeCache.find (cache.map (fun p => if p.1 = a then (a, r) else p)) m
      = if m = a then (NodeCache.find cache a).map (fun _ => r)
        else NodeCache.find cache m := by
  induction cache with
  | nil => simp [NodeCache.find]
  | cons p rest ih =>
    obtain ⟨k, v⟩ := p
    by_cases hk : k = a
    · subst hk
      have e : (if (k, v).1 = k then (k, r) else (k, v)) = (k, r) := by simp
      rw [List.map_cons, e]
      by_cases hm : m = k
      · subst hm
        simp [NodeCache.find]
      · have hm' : ¬ k = m := fun e => hm e.symm
        simp [NodeCache.find, hm, hm', ih]
    · have e : (if (k, v).1 = a then (a, r) else (k, v)) = (k, v) := by simp [hk]
      rw [List.map_cons, e]
      by_cases hm : m = a
      · subst hm
        simp [NodeCache.find, hk, ih]
      · simp [NodeCache.find, hm, ih]

theorem NodeCache.find_assign (cache : List (Nat × Int)) (a : Nat) (r : Int) (m : Nat) :
    NodeCache.find (NodeCache.assign cache a r) m
      = if m = a then some r else NodeCache.find cache m := by
  unfold NodeCache.assign
  cases hf : NodeCache.find cache a with
  | none =>
    by_cases hm : m = a
    · subst hm
      simp [NodeCache.find]
    · have hm' : ¬ a = m := fun e => hm e.symm
      simp [NodeCache.find, hm, hm']
  | some v =>
    simp only [NodeCache.find_map_assign, hf, Option.map_some']

theorem CacheSound.nil (g : Heap) (rank : Nat → Nat) : CacheSound g rank [] := by
  intro m v h
  simp [NodeCache.find] at h

theorem CacheSound.assign {g : Heap} {rank : Nat → Nat} {cache : List (Nat × Int)}
    (h : CacheSound g rank cache) {a : Nat} {r : Int}
    (ha : maxPathSumPlain g (rank a + 1) (some a) = Outcome.ok r) :
    CacheSound g rank (NodeCache.assign cache a r) := by
  intro m v hf
  rw [NodeCache.find_assign] at hf
  by_cases hm : m = a
  · subst hm
    rw [if_pos rfl] at hf
    cases hf
    exact ha
  · rw [if_neg hm] at hf
    exact h m v hf

/-- The loop over the children with the cache against the loop without it,
given that every single call agrees. -/
theorem childrenLoop_spec {g : Heap} {rank : Nat → Nat}
    (call : Option Nat → List (Nat × Int) → Outcome (Int × List (Nat × Int)))
    (plain : Option Nat → Outcome Int) (cs : List (Option Nat))
    (hcall : ∀ c ∈ cs, ∀ cache, CacheSound g rank cache →
      (∃ r cache1, call c cache = Outcome.ok (r, cache1) ∧ plain c = Outcome.ok r ∧
        CacheSound g rank cache1) ∨
      (call c cache = Outcome.undefined ∧ plain c = Outcome.undefined)) :
    ∀ (m : Int) (cache : List (Nat × Int)), CacheSound g rank cache →
      (∃ r cache1, childrenLoop call cs m cache = Outcome.ok (r, cache1) ∧
        plainLoop plain cs m = Outcome.ok r ∧ CacheSound g rank cache1) ∨
      (childrenLoop call cs m cache = Outcome.undefined ∧
        plainLoop plain cs m = Outcome.undefined) := by
  induction cs with
  | nil =>
    intro m cache hs
    exact Or.inl ⟨m, cache, rfl, rfl, hs⟩
  | cons c cs ih =>
    intro m cache hs
    have ih1 := ih (fun d hd => hcall d (List.mem_cons_of_mem _ hd))
    rcases hcall c (List.mem_cons_self _ _) cache hs with ⟨r, cache1, h1, h2, h3⟩ | ⟨h1, h2⟩
    · simp only [childrenLoop, plainLoop, h1, h2]
      exact ih1 (max m r) cache1 h3
    · right
      simp [childrenLoop, plainLoop, h1, h2]

/-- With fuel above the rank of the node, `maxPathSumCached` on a sound cache
ends as the plain recursion does, with the same value, and leaves a sound cache. -/
theorem maxPathSumCached_spec {g : Heap} {rank : Nat → Nat} (hr : Ranked g rank) :
    ∀ (fuel : Nat) (node : Option Nat) (cache : List (Nat × Int)),
      CacheSound g rank cache → (∀ a, node = some a → rank a < fuel) →
      (∃ r cache1, maxPathSumCached g fuel node cache = Outcome.ok (r, cache1) ∧
        maxPathSumPlain g fuel node = Outcome.ok r ∧ CacheSound g rank cache1) ∨
      (maxPathSumCached g fuel node cache = Outcome.undefined ∧
        maxPathSumPlain g fuel node = Outcome.undefined) := by
  intro fuel
  induction fuel with
  | zero =>
    intro node cache hs hrank
    cases node with
    | none => exact Or.inl ⟨0, cache, rfl, rfl, hs⟩
    | some a => exact absurd (hrank a rfl) (Nat.not_lt_zero _)
  | succ fuel ih =>
    intro node cache hs hrank
    cases node with
    | none => exact Or.inl ⟨0, cache, rfl, rfl, hs⟩
    | some a =>
      have hra : rank a < fuel + 1 := hrank a rfl
      cases hf : NodeCache.find cache a with
      | some v =>
        refine Or.inl ⟨v, cache, by simp [maxPathSumCached, hf], ?_, hs⟩
        rw [maxPathSumPlain_fuel hr (fuel + 1) (rank a + 1) a hra (Nat.lt_succ_self _)]
        exact hs a v hf
      | none =>
        cases hn : g[a]? with
        | none =>
          exact Or.inr ⟨by simp [maxPathSumCached, hf, hn], by simp [maxPathSumPlain, hn]⟩
        | some n =>
          have hcall : ∀ c ∈ n.children, ∀ cache, CacheSound g rank cache →
              (∃ r cache1, maxPathSumCached g fuel c cache = Outcome.ok (r, cache1) ∧
                maxPathSumPlain g fuel c = Outcome.ok r ∧ CacheSound g rank cache1) ∨
              (maxPathSumCached g fuel c cache = Outcome.undefined ∧
                maxPathSumPlain g fuel c = Outcome.undefined) := by
            intro c hc cache0 hs0
            apply ih c cache0 hs0
            intro b hb
            subst hb
            have := (hr a n hn b hc).2
            omega
          rcases childrenLoop_spec (maxPathSumCached g fuel) (maxPathSumPlain g fuel)
              n.children hcall 0 cache hs with ⟨M, cache1, h1, h2, h3⟩ | ⟨h1, h2⟩
          · cases hadd : intAdd M n.value with
            | none =>
              exact Or.inr ⟨by simp [maxPathSumCached, hf, hn, h1, hadd],
                by simp [maxPathSumPlain, hn, h2, hadd]⟩
            | some r =>
              have hp : maxPathSumPlain g (fuel + 1) (some a) = Outcome.ok r := by
                simp [maxPathSumPlain, hn, h2, hadd]
              refine Or.inl ⟨r, NodeCache.assign cache1 a r,
                by simp [maxPathSumCached, hf, hn, h1, hadd], hp, ?_⟩
              apply h3.assign
              rw [← maxPathSumPlain_fuel hr (fuel + 1) (rank a + 1) a hra
                (Nat.lt_succ_self _)]
              exact hp
          · exact Or.inr ⟨by simp [maxPathSumCached, hf, hn, h1],
              by simp [maxPathSumPlain, hn, h2]⟩

/-! Maximum path sum: paths -/

theorem isPath_single (g : Heap) (a : Nat) : isPath g [a] = true ↔ a < g.length := by
  simp [isPath]

theorem isPath_cons_cons (g : Heap) (a b : Nat) (rest : List Nat) :
    isPath g (a :: b :: rest) = true ↔
      (∃ n, g[a]? = some n ∧ some b ∈ n.children) ∧ isPath g (b :: rest) = true := by
  cases hn : g[a]? with
  | none => simp [isPath, hn]
  | some n => simp [isPath, hn]

theorem pathSum_cons (g : Heap) (a : Nat) (q : List Nat) :
    pathSum g (a :: q) = nodeValue g a + pathSum g q := by
  simp [pathSum]

theorem PathsFit.child {g : Heap} {a b : Nat} {n : Node} (h : PathsFit g a)
    (hn : g[a]? = some n) (hb : some b ∈ n.children) : PathsFit g b := by
  intro p q hp hhead hq
  have hpq : ∃ rest, p ++ q = b :: rest := by
    cases hl : p ++ q with
    | nil => rw [hl] at hhead; cases hhead
    | cons x rest =>
      rw [hl] at hhead
      simp only [List.head?_cons, Option.some.injEq] at hhead
      exact ⟨rest, by rw [hhead]⟩
  obtain ⟨rest, hrest⟩ := hpq
  apply h (a :: p) q _ rfl hq
  rw [List.cons_append, hrest, isPath_cons_cons]
  refine ⟨⟨n, hn, hb⟩, ?_⟩
  rw [← hrest]
  exact hp

theorem plainLoop_ok (call : Option Nat → Outcome Int) (cs : List (Option Nat))
    (h : ∀ c ∈ cs, ∃ v, call c = Outcome.ok v) (m : Int) :
    ∃ M, plainLoop call cs m = Outcome.ok M ∧ m ≤ M ∧
      (M = m ∨ ∃ c ∈ cs, call c = Outcome.ok M) ∧
      ∀ c ∈ cs, ∀ v, call c = Outcome.ok v → v ≤ M := by
  induction cs generalizing m with
  | nil => exact ⟨m, rfl, le_refl _, Or.inl rfl, by simp⟩
  | cons c cs ih =>
    obtain ⟨v, hv⟩ := h c (List.mem_cons_self _ _)
    obtain ⟨M, h1, h2, h3, h4⟩ :=
      ih (fun d hd => h d (List.mem_cons_of_mem _ hd)) (max m v)
    refine ⟨M, by simp only [plainLoop, hv, h1], le_trans (le_max_left _ _) h2, ?_, ?_⟩
    · rcases h3 with h3 | ⟨d, hd, hdv⟩
      · rcases max_choice m v with hm | hm
        · exact Or.inl (by rw [h3, hm])
        · exact Or.inr ⟨c, List.mem_cons_self _ _, by rw [h3, hm]; exact hv⟩
      · exact Or.inr ⟨d, List.mem_cons_of_mem _ hd, hdv⟩
    · intro d hd w hw
      rcases List.mem_cons.1 hd with rfl | hd
      · rw [hv] at hw
        cases hw
        exact le_trans (le_max_right _ _) h2
      · exact h4 d hd w hw

/-- Without overflow the plain recursion returns the maximum path sum. -/
theorem maxPathSumPlain_max {g : Heap} {rank : Nat → Nat} (hr : Ranked g rank)
    (hv : ∀ n ∈ g, INT_MIN ≤ n.value) :
    ∀ (fuel a : Nat), a < g.length → rank a < fuel → PathsFit g a →
      ∃ v, maxPathSumPlain g fuel (some a) = Outcome.ok v ∧ IsMaxPathSum g a v := by
  intro fuel
  induction fuel with
  | zero => intro a _ h; omega
  | succ fuel ih =>
    intro a ha hra hfit
    have hn : g[a]? = some g[a] := List.getElem?_eq_getElem ha
    have hval : nodeValue g a = g[a].value := by simp [nodeValue, hn]
    have hchild : ∀ b, some b ∈ g[a].children →
        ∃ v, maxPathSumPlain g fuel (some b) = Outcome.ok v ∧ IsMaxPathSum g b v := by
      intro b hb
      obtain ⟨hb1, hb2⟩ := hr a _ hn b hb
      exact ih b hb1 (by omega) (hfit.child hn hb)
    have hall : ∀ c ∈ g[a].children, ∃ v, maxPathSumPlain g fuel c = Outcome.ok v := by
      intro c hc
      cases c with
      | none => exact ⟨0, maxPathSumPlain_null g fuel⟩
      | some b =>
        obtain ⟨v, h1, -⟩ := hchild b hc
        exact ⟨v, h1⟩
    obtain ⟨M, hM, hM0, hMeq, hMle⟩ := plainLoop_ok (maxPathSumPlain g fuel) _ hall 0
    -- a path from `a` whose sum is `M + value`
    have hach : ∃ q, isPath g q = true ∧ q.head? = some a ∧
        pathSum g q = M + g[a].value := by
      have hself : ∃ q, isPath g q = true ∧ q.head? = some a ∧
          pathSum g q = 0 + g[a].value :=
        ⟨[a], (isPath_single g a).2 ha, rfl, by simp [pathSum, hval]⟩
      rcases hMeq with h0 | ⟨c, hc, hcM⟩
      · rw [h0]; exact hself
      · cases c with
        | none =>
          rw [maxPathSumPlain_null] at hcM
          cases hcM
          exact hself
        | some b =>
          obtain ⟨v, h1, ⟨q, hq1, hq2, hq3⟩, -⟩ := hchild b hc
          rw [h1] at hcM
          cases hcM
          obtain ⟨rest, rfl⟩ : ∃ rest, q = b :: rest := by
            cases q with
            | nil => cases hq2
            | cons x rest =>
              simp only [List.head?_cons, Option.some.injEq] at hq2
              exact ⟨rest, by rw [hq2]⟩
          refine ⟨a :: b :: rest, ?_, rfl, ?_⟩
          · rw [isPath_cons_cons]
            exact ⟨⟨_, hn, hc⟩, hq1⟩
          · rw [pathSum_cons, hval, hq3]
            ring
    have hupper : ∀ q, isPath g q = true → q.head? = some a →
        pathSum g q ≤ M + g[a].value := by
      intro q hq hhead
      cases q with
      | nil => cases hhead
      | cons x rest =>
        simp only [List.head?_cons, Option.some.injEq] at hhead
        subst hhead
        cases rest with
        | nil =>
          simp only [pathSum, List.map_cons, List.map_nil, List.sum_cons, List.sum_nil,
            hval]
          omega
        | cons b rest =>
          rw [isPath_cons_cons] at hq
          obtain ⟨⟨n, hn1, hb⟩, hq1⟩ := hq
          rw [hn] at hn1
          cases hn1
          obtain ⟨v, h1, -, hmax⟩ := hchild b hb
          have h2 := hmax (b :: rest) hq1 rfl
          have h3 := hMle (some b) hb v h1
          rw [pathSum_cons, hval]
          omega
    have hadd : intAdd M g[a].value = some (M + g[a].value) := by
      obtain ⟨q, hq1, hq2, hq3⟩ := hach
      have hle := hfit [] q hq1 hq2 (by
        intro e
        rw [e] at hq1
        simp [isPath] at hq1)
      have hge := hv g[a] (List.getElem_mem ha)
      unfold intAdd
      rw [if_pos ⟨by omega, by omega⟩]
    exact ⟨M + g[a].value, by simp [maxPathSumPlain, hn, hM, hadd], hach, hupper⟩

theorem nodeValue_le {g : Heap} {B : Int} (h0 : 0 ≤ B) (hB : ∀ n ∈ g, n.value ≤ B)
    (a : Nat) : nodeValue g a ≤ B := by
  unfold nodeValue
  cases hn : g[a]? with
  | none => exact h0
  | some n => exact hB n (List.getElem?_mem hn)

theorem pathSum_le_of_values {g : Heap} {rank : Nat → Nat} (hr : Ranked g rank) {B : Int}
    (h0 : 0 ≤ B) (hB : ∀ n ∈ g, n.value ≤ B) :
    ∀ (q : List Nat), isPath g q = true → ∀ a, q.head? = some a →
      pathSum g q ≤ ((rank a : Int) + 1) * B := by
  intro q
  induction q with
  | nil => intro h; simp [isPath] at h
  | cons x rest ih =>
    intro hq a ha
    simp only [List.head?_cons, Option.some.injEq] at ha
    subst ha
    have hx := nodeValue_le h0 hB x
    have hrk : (0 : Int) ≤ (rank x : Int) * B :=
      Int.mul_nonneg (Int.ofNat_nonneg _) h0
    cases rest with
    | nil =>
      simp only [pathSum, List.map_cons, List.map_nil, List.sum_cons, List.sum_nil]
      rw [Int.add_mul]
      omega
    | cons b rest =>
      rw [isPath_cons_cons] at hq
      obtain ⟨⟨n, hn, hb⟩, hq1⟩ := hq
      have hlt := (hr x n hn b hb).2
      have h1 := ih hq1 b rfl
      have h2 : ((rank b : Int) + 1) * B ≤ (rank x : Int) * B :=
        Int.mul_le_mul_of_nonneg_right (by omega) h0
      rw [pathSum_cons, Int.add_mul]
      omega

theorem isPath_suffix {g : Heap} {rank : Nat → Nat} (hr : Ranked g rank) :
    ∀ (p q : List Nat), isPath g (p ++ q) = true → q ≠ [] →
      isPath g q = true ∧
      ∀ a m, (p ++ q).head? = some a → q.head? = some m → rank m ≤ rank a := by
  intro p
  induction p with
  | nil =>
    intro q hq _
    refine ⟨hq, ?_⟩
    intro a m ha hm
    rw [List.nil_append, hm] at ha
    cases ha
    exact le_refl _
  | cons x p ih =>
    intro q hq hne
    obtain ⟨y, rest, hrest⟩ : ∃ y rest, p ++ q = y :: rest := by
      cases hl : p ++ q with
      | nil =>
        have := List.append_eq_nil.1 hl
        exact absurd this.2 hne
      | cons y rest => exact ⟨y, rest, rfl⟩
    rw [List.cons_append, hrest, isPath_cons_cons] at hq
    obtain ⟨⟨n, hn, hy⟩, hq1⟩ := hq
    rw [← hrest] at hq1
    obtain ⟨h1, h2⟩ := ih q hq1 hne
    refine ⟨h1, ?_⟩
    intro a m ha hm
    simp only [List.cons_append, List.head?_cons, Option.some.injEq] at ha
    subst ha
    have h3 := h2 y m (by rw [hrest]; rfl) hm
    have h4 := (hr x n hn y hy).2
    omega

/-- A sufficient condition for the absence of overflow: node values at most `B`
and `(rank a + 1) * B` within `int`. -/
theorem pathsFit_of_values {g : Heap} {rank : Nat → Nat} (hr : Ranked g rank) {B : Int}
    (h0 : 0 ≤ B) (hB : ∀ n ∈ g, n.value ≤ B) (a : Nat)
    (hle : ((rank a : Int) + 1) * B ≤ INT_MAX) : PathsFit g a := by
  intro p q hp ha hq
  obtain ⟨h1, h2⟩ := isPath_suffix hr p q hp hq
  obtain ⟨m, rest, rfl⟩ : ∃ m rest, q = m :: rest := by
    cases q with
    | nil => exact absurd rfl hq
    | cons m rest => exact ⟨m, rest, rfl⟩
  have h3 := pathSum_le_of_values hr h0 hB _ h1 m rfl
  have h4 : rank m ≤ rank a := h2 a m ha rfl
  have h5 : ((rank m : Int) + 1) * B ≤ ((rank a : Int) + 1) * B :=
    Int.mul_le_mul_of_nonneg_right (by omega) h0
  omega

theorem maxPathSum_eq_plain {g : Heap} {rank : Nat → Nat} (hr : Ranked g rank)
    (fuel a : Nat) (hfuel : rank a < fuel) :
    maxPathSum g fuel (some a) = maxPathSumPlain g fuel (some a) := by
  unfold maxPathSum
  rcases maxPathSumCached_spec hr fuel (some a) [] (CacheSound.nil g rank)
    (fun b hb => by cases hb; exact hfuel) with ⟨r, cache1, h1, h2, -⟩ | ⟨h1, h2⟩
  · rw [h1, h2]
  · rw [h1, h2]

/-! The claims -/

/-- C1 (capacity invariant). For every capacity `c ≥ 1` and every sequence of
`put` and `get` calls on a freshly constructed `FIFOBuffer(c)` or `LRUCache(c)`,
after every call (after the first `n` calls, for every `n`) the calls have
completed and the ordering, and the index with it, holds at most `c` entries. -/
theorem capacity_invariant (c : Nat) (hc : 1 ≤ c) (ops : List Op) (n : Nat) :
    (∃ s, FIFOBuffer.run (FIFOBuffer.new c) (ops.take n) = some s ∧
      s.buffer_.length ≤ c ∧ s.cache_map_.length ≤ c) ∧
    (∃ s, LRUCache.run (LRUCache.new c) (ops.take n) = some s ∧
      s.buffer_.length ≤ c ∧ s.cache_map_.length ≤ c) := by
  constructor
  · obtain ⟨s, hs⟩ := FIFOBuffer.run_total (State.WF.of_new c) hc (ops.take n)
    obtain ⟨hwf, hcap⟩ := FIFOBuffer.run_wf (State.WF.of_new c) hs
    have h1 := hwf.cap
    have h2 := hwf.length_index
    have h3 : s.capacity_ = c := hcap
    exact ⟨s, hs, by omega, by omega⟩
  · obtain ⟨s, hs⟩ := LRUCache.lru_run_total (State.WF.of_new c) hc (ops.take n)
    obtain ⟨hwf, hcap⟩ := LRUCache.lru_run_wf (State.WF.of_new c) hs
    have h1 := hwf.cap
    have h2 := hwf.length_index
    have h3 : s.capacity_ = c := hcap
    exact ⟨s, hs, by omega, by omega⟩

/-- Witness of C1: the test driver's calls on capacity 3. -/
theorem capacity_invariant_witness :
    1 ≤ 3 ∧
    (∃ s, FIFOBuffer.run (FIFOBuffer.new 3) (testOps.take 7) = some s ∧
      s.buffer_.length ≤ 3 ∧ s.cache_map_.length ≤ 3) ∧
    (∃ s, LRUCache.run (LRUCache.new 3) (testOps.take 7) = some s ∧
      s.buffer_.length ≤ 3 ∧ s.cache_map_.length ≤ 3) :=
  ⟨by decide, capacity_invariant 3 (by decide) testOps 7⟩

/-- C2 (error on miss). In every state a call sequence `ops` on a new
`FIFOBuffer` or `LRUCache` leads to, `get(key)` completes, it throws
`std::out_of_range` exactly when the ordering holds no entry for `key` (which is
exactly when the index has none), a `get` that throws leaves the whole state as
it was, and `get(key)` does throw when `ops` contains no `put` of `key`. -/
theorem error_on_miss (c : Nat) (ops : List Op) (s : State) (key : Int) :
    (FIFOBuffer.run (FIFOBuffer.new c) ops = some s →
      ∃ r, FIFOBuffer.get s key = some r ∧
        (r.1 = GetResult.out_of_range ↔ key ∉ s.keys) ∧
        (key ∉ s.keys ↔ UMap.find s.cache_map_ key = none) ∧
        (r.1 = GetResult.out_of_range → r.2 = s) ∧
        ((∀ v, Op.put key v ∉ ops) → r.1 = GetResult.out_of_range)) ∧
    (LRUCache.run (LRUCache.new c) ops = some s →
      ∃ r, LRUCache.get s key = some r ∧
        (r.1 = GetResult.out_of_range ↔ key ∉ s.keys) ∧
        (key ∉ s.keys ↔ UMap.find s.cache_map_ key = none) ∧
        (r.1 = GetResult.out_of_range → r.2 = s) ∧
        ((∀ v, Op.put key v ∉ ops) → r.1 = GetResult.out_of_range)) := by
  constructor
  · intro hr
    obtain ⟨hwf, -⟩ := FIFOBuffer.run_wf (State.WF.of_new c) hr
    have hsub := FIFOBuffer.run_keys_subset (State.WF.of_new c) hr key
    have hnever : (∀ v, Op.put key v ∉ ops) → key ∉ s.keys := by
      intro hno hk
      rcases hsub hk with h0 | ⟨v, hv⟩
      · simp [FIFOBuffer.new, State.keys] at h0
      · exact hno v hv
    rcases FIFOBuffer.get_spec hwf key with ⟨hk, hg⟩ | ⟨v, hv, hg⟩
    · exact ⟨_, hg, by simp [hk], (hwf.index_find_eq_none_iff key).symm, fun _ => rfl,
        fun _ => rfl⟩
    · have hk : key ∈ s.keys := State.mem_keys_of_mem_entries hv
      exact ⟨_, hg, by simp [hk], (hwf.index_find_eq_none_iff key).symm, by simp,
        fun hno => absurd hk (hnever hno)⟩
  · intro hr
    obtain ⟨hwf, -⟩ := LRUCache.lru_run_wf (State.WF.of_new c) hr
    have hsub := LRUCache.lru_run_keys_subset (State.WF.of_new c) hr key
    have hnever : (∀ v, Op.put key v ∉ ops) → key ∉ s.keys := by
      intro hno hk
      rcases hsub hk with h0 | ⟨v, hv⟩
      · simp [FIFOBuffer.new, State.keys] at h0
      · exact hno v hv
    rcases LRUCache.lru_get_spec hwf key with ⟨hk, hg⟩ | ⟨v, s1, hv, hg, -⟩
    · exact ⟨_, hg, by simp [hk], (hwf.index_find_eq_none_iff key).symm, fun _ => rfl,
        fun _ => rfl⟩
    · have hk : key ∈ s.keys := State.mem_keys_of_mem_entries hv
      exact ⟨_, hg, by simp [hk], (hwf.index_find_eq_none_iff key).symm, by simp,
        fun hno => absurd hk (hnever hno)⟩

/-- Witness of C2: key 1 after the test driver's calls, where it has been evicted. -/
theorem error_on_miss_witness :
    (FIFOBuffer.run (FIFOBuffer.new 3) testOps = some fifoTestState ∧
      LRUCache.run (LRUCache.new 3) testOps = some fifoTestState) ∧
    (∃ r, FIFOBuffer.get fifoTestState 1 = some r ∧
        (r.1 = GetResult.out_of_range ↔ (1 : Int) ∉ fifoTestState.keys) ∧
        ((1 : Int) ∉ fifoTestState.keys ↔ UMap.find fifoTestState.cache_map_ 1 = none) ∧
        (r.1 = GetResult.out_of_range → r.2 = fifoTestState) ∧
        ((∀ v, Op.put 1 v ∉ testOps) → r.1 = GetResult.out_of_range)) ∧
    (∃ r, LRUCache.get fifoTestState 1 = some r ∧
        (r.1 = GetResult.out_of_range ↔ (1 : Int) ∉ fifoTestState.keys) ∧
        ((1 : Int) ∉ fifoTestState.keys ↔ UMap.find fifoTestState.cache_map_ 1 = none) ∧
        (r.1 = GetResult.out_of_range → r.2 = fifoTestState) ∧
        ((∀ v, Op.put 1 v ∉ testOps) → r.1 = GetResult.out_of_range)) :=
  ⟨⟨by decide, by decide⟩,
   (error_on_miss 3 testOps fifoTestState 1).1 (by decide),
   (error_on_miss 3 testOps fifoTestState 1).2 (by decide)⟩

/-- C3 (put then get). For every capacity `c ≥ 1`, every reachable state of a
`FIFOBuffer` or an `LRUCache`, every key and value: `put(key, value)` completes
and a `get(key)` issued right after it returns `value`, whether or not the key
was present and whether or not the cache was full. -/
theorem put_then_get (c : Nat) (hc : 1 ≤ c) (s : State) (key : Int) (value : String) :
    (FIFOBuffer.Reachable c s →
      ∃ s1, FIFOBuffer.put s key value = some s1 ∧
        FIFOBuffer.get s1 key = some (GetResult.value value, s1)) ∧
    (LRUCache.Reachable c s →
      ∃ s1 s2, LRUCache.put s key value = some s1 ∧
        LRUCache.get s1 key = some (GetResult.value value, s2)) := by
  constructor
  · intro hr
    obtain ⟨hwf, hcap⟩ := FIFOBuffer.reachable_wf hr
    obtain ⟨s1, hp, hwf1, -, hmem⟩ := FIFOBuffer.put_head hwf (by omega) key value
    refine ⟨s1, hp, ?_⟩
    rcases FIFOBuffer.get_spec hwf1 key with ⟨hk, -⟩ | ⟨v, hv, hg⟩
    · exact absurd (by rw [State.keys_eq_entries]; exact List.mem_map.2 ⟨_, hmem, rfl⟩) hk
    · rw [hg, hwf1.value_unique hv hmem]
  · intro hr
    obtain ⟨hwf, hcap⟩ := LRUCache.lru_reachable_wf hr
    obtain ⟨s1, hp, hwf1, -, hmem⟩ := FIFOBuffer.put_head hwf (by omega) key value
    rcases LRUCache.lru_get_spec hwf1 key with ⟨hk, -⟩ | ⟨v, s2, hv, hg, -⟩
    · exact absurd (by rw [State.keys_eq_entries]; exact List.mem_map.2 ⟨_, hmem, rfl⟩) hk
    · exact ⟨s1, s2, hp, by rw [hg, hwf1.value_unique hv hmem]⟩

/-- Witness of C3: `put(5, "five")` on the full cache the test driver reaches. -/
theorem put_then_get_witness :
    (1 ≤ 3 ∧ FIFOBuffer.Reachable 3 fifoTestState ∧ LRUCache.Reachable 3 fifoTestState) ∧
    (∃ s1, FIFOBuffer.put fifoTestState 5 "five" = some s1 ∧
        FIFOBuffer.get s1 5 = some (GetResult.value "five", s1)) ∧
    (∃ s1 s2, LRUCache.put fifoTestState 5 "five" = some s1 ∧
        LRUCache.get s1 5 = some (GetResult.value "five", s2)) :=
  ⟨⟨by decide, ⟨testOps, by decide⟩, ⟨testOps, by decide⟩⟩,
   (put_then_get 3 (by decide) fifoTestState 5 "five").1 ⟨testOps, by decide⟩,
   (put_then_get 3 (by decide) fifoTestState 5 "five").2 ⟨testOps, by decide⟩⟩

/-- C4 (FIFO eviction order). For every capacity `c ≥ 1`, when the `put` calls of
a call sequence on an empty `FIFOBuffer(c)` are exactly `put(k1, v1)` followed by
`c` further puts with pairwise distinct keys, all different from `k1`, with any
`get` calls interleaved, then the sequence completes, afterwards `get(k1)` throws
`std::out_of_range` and `get` of every later key returns the value it was put with. -/
theorem fifo_eviction_order (c : Nat) (hc : 1 ≤ c) (k1 : Int) (v1 : String)
    (rest : List (Int × String)) (hlen : rest.length = c)
    (hnd : (((k1, v1) :: rest).map Prod.fst).Nodup) (ops : List Op)
    (hops : ops.filter Op.isPut = putsOf ((k1, v1) :: rest)) :
    ∃ s, FIFOBuffer.run (FIFOBuffer.new c) ops = some s ∧
      s.entries = rest.reverse ∧
      FIFOBuffer.get s k1 = some (GetResult.out_of_range, s) ∧
      ∀ kv ∈ rest, FIFOBuffer.get s kv.1 = some (GetResult.value kv.2, s) := by
  obtain ⟨s, hr, hwf, -, he⟩ := FIFOBuffer.run_puts (State.WF.of_new c) hc
    ((k1, v1) :: rest) hnd (by simp [FIFOBuffer.new, State.keys])
  have he' : s.entries = rest.reverse := by
    rw [he]
    simp only [FIFOBuffer.new, State.entries, List.map_nil, List.append_nil,
      List.reverse_cons]
    exact List.take_left' (by simp [hlen])
  refine ⟨s, ?_, he', ?_, ?_⟩
  · rw [FIFOBuffer.run_filter_put (State.WF.of_new c), hops]
    exact hr
  · apply FIFOBuffer.get_miss hwf
    rw [State.keys_eq_entries, he']
    simp only [List.map_cons, List.nodup_cons] at hnd
    simpa using hnd.1
  · intro kv hkv
    apply FIFOBuffer.get_of_mem hwf
    rw [he']
    exact List.mem_reverse.2 hkv

/-- Witness of C4: the test driver's case, capacity 3 and keys 1, 2, 3, 4. -/
theorem fifo_eviction_order_witness :
    (1 ≤ 3 ∧ [((2 : Int), "two"), (3, "three"), (4, "four")].length = 3 ∧
      ((((1 : Int), "one") :: [((2 : Int), "two"), (3, "three"), (4, "four")]).map
        Prod.fst).Nodup ∧
      testOps.filter Op.isPut
        = putsOf (((1 : Int), "one") :: [((2 : Int), "two"), (3, "three"), (4, "four")])) ∧
    ∃ s, FIFOBuffer.run (FIFOBuffer.new 3) testOps = some s ∧
      s.entries = [((2 : Int), "two"), (3, "three"), (4, "four")].reverse ∧
      FIFOBuffer.get s 1 = some (GetResult.out_of_range, s) ∧
      ∀ kv ∈ [((2 : Int), "two"), (3, "three"), (4, "four")],
        FIFOBuffer.get s kv.1 = some (GetResult.value kv.2, s) :=
  ⟨⟨by decide, by decide, by decide, by decide⟩,
   fifo_eviction_order 3 (by decide) 1 "one" [(2, "two"), (3, "three"), (4, "four")]
     (by decide) (by decide) testOps (by decide)⟩

/-- C5 (LRU promotion on get). In every reachable `LRUCache` state that holds
`key`, `get(key)` returns the value stored for `key` and leaves an ordering with
that entry at the front followed by the other entries in their previous order;
the entries (keys with their values) are the same as before. -/
theorem lru_get_promotes (c : Nat) (s : State) (key : Int)
    (hr : LRUCache.Reachable c s) (hk : key ∈ s.keys) :
    ∃ v s1, LRUCache.get s key = some (GetResult.value v, s1) ∧
      (key, v) ∈ s.entries ∧
      s1.entries = (key, v) :: s.entries.filter (fun e => decide (e.1 ≠ key)) ∧
      (∀ k, k ∈ s1.keys ↔ k ∈ s.keys) ∧
      (∀ k w, (k, w) ∈ s1.entries ↔ (k, w) ∈ s.entries) ∧
      s1.entries.length = s.entries.length := by
  obtain ⟨hwf, -⟩ := LRUCache.lru_reachable_wf hr
  obtain ⟨v, hv⟩ := State.exists_entry_of_mem_keys hk
  obtain ⟨s1, hg, -, -, -, he⟩ := LRUCache.lru_get_of_mem hwf hv
  obtain ⟨-, -, -, hperm⟩ := touch_facts hwf.entries_nodup hv v
  have hp : List.Perm s1.entries s.entries := by rw [he]; exact hperm rfl
  refine ⟨v, s1, hg, hv, he, ?_, fun k w => hp.mem_iff, hp.length_eq⟩
  intro k
  rw [State.keys_eq_entries, State.keys_eq_entries]
  exact (hp.map Prod.fst).mem_iff

/-- Witness of C5: `get(3)` in the state the test driver reaches. -/
theorem lru_get_promotes_witness :
    (LRUCache.Reachable 3 fifoTestState ∧ (3 : Int) ∈ fifoTestState.keys) ∧
    ∃ v s1, LRUCache.get fifoTestState 3 = some (GetResult.value v, s1) ∧
      ((3 : Int), v) ∈ fifoTestState.entries ∧
      s1.entries = (3, v) :: fifoTestState.entries.filter (fun e => decide (e.1 ≠ 3)) ∧
      (∀ k, k ∈ s1.keys ↔ k ∈ fifoTestState.keys) ∧
      (∀ k w, (k, w) ∈ s1.entries ↔ (k, w) ∈ fifoTestState.entries) ∧
      s1.entries.length = fifoTestState.entries.length :=
  ⟨⟨⟨testOps, by decide⟩, by decide⟩,
   lru_get_promotes 3 fifoTestState 3 ⟨testOps, by decide⟩ (by decide)⟩

/-- C6 (a retrieved element survives the next eviction). For every capacity
`c ≥ 2` and every reachable `LRUCache(c)` state holding exactly `c` entries: when
`get(k)` returns `v` and is followed by `put(k2, v2)` for an absent key `k2`,
the put completes, afterwards `get(k)` still returns `v` and `get(k2)` returns
`v2`, and among the keys held before exactly one is gone: the key `back` that
was last in the ordering after the `get`, which is not `k`. -/
theorem lru_get_protects (c : Nat) (hc : 2 ≤ c) (s s1 : State) (k : Int) (v : String)
    (k2 : Int) (v2 : String) (hr : LRUCache.Reachable c s)
    (hfull : s.buffer_.length = c)
    (hg : LRUCache.get s k = some (GetResult.value v, s1)) (hk2 : k2 ∉ s.keys) :
    ∃ s2 back, LRUCache.put s1 k2 v2 = some s2 ∧
      s1.keys.getLast? = some back ∧ back ∈ s.keys ∧ back ≠ k ∧
      (∃ s3, LRUCache.get s2 k = some (GetResult.value v, s3)) ∧
      (∃ s3, LRUCache.get s2 k2 = some (GetResult.value v2, s3)) ∧
      (∀ j ∈ s.keys, j ∉ s2.keys ↔ j = back) := by
  obtain ⟨hwf, hcap⟩ := LRUCache.lru_reachable_wf hr
  rcases LRUCache.lru_get_spec hwf k with ⟨-, hg1⟩ | ⟨w, t1, hw, hg1, hwf1, hcap1, -, he1⟩
  · rw [hg1] at hg; cases hg
  rw [hg1] at hg
  cases hg
  obtain ⟨hlen1, hkeys1, -, -⟩ := touch_facts hwf.entries_nodup hw v
  rw [← he1] at hlen1 hkeys1
  simp only [← State.keys_eq_entries] at hkeys1
  have hlen : s1.buffer_.length = c := by
    rw [← State.length_entries, hlen1, State.length_entries, hfull]
  have hk2' : k2 ∉ s1.keys := fun h => hk2 ((hkeys1 k2).1 h)
  obtain ⟨s2, hp, hwf2, -, he2⟩ := LRUCache.lru_put_spec hwf1 (by omega) k2 v2
  rw [if_neg hk2', if_pos (by omega)] at he2
  -- the ordering after the get: `k` first, then a non-empty rest
  have hne : s.entries.filter (fun e => decide (e.1 ≠ k)) ≠ [] := by
    intro e
    have h3 := State.length_entries s1
    rw [he1, e, hlen] at h3
    simp at h3
    omega
  have hdrop : s1.entries.dropLast
      = (k, v) :: (s.entries.filter (fun e => decide (e.1 ≠ k))).dropLast := by
    rw [he1, List.dropLast_cons_of_ne_nil hne]
  have hkne : s1.keys ≠ [] := by
    intro e
    have h3 := State.length_keys s1
    rw [e, hlen] at h3
    simp at h3
    omega
  have hback : s1.keys.getLast? = some (s1.keys.getLast hkne) :=
    List.getLast?_eq_getLast _ hkne
  have hkeys2 : s2.keys = k2 :: s1.keys.dropLast := by
    rw [State.keys_eq_entries, he2, State.keys_eq_entries, List.map_cons, List.map_dropLast]
  have hkmem : k ∈ s1.keys.dropLast := by
    rw [State.keys_eq_entries, ← List.map_dropLast, hdrop]
    simp
  have hk1 : k ∈ s1.keys := List.mem_of_mem_dropLast hkmem
  refine ⟨s2, s1.keys.getLast hkne, hp, hback, ?_, ?_, ?_, ?_, ?_⟩
  · exact (hkeys1 _).1 (List.getLast_mem hkne)
  · intro e
    exact ((not_mem_dropLast_iff hwf1.key_nodup hback hk1).2 e.symm) hkmem
  · have hm : (k, v) ∈ s2.entries := by rw [he2, hdrop]; simp
    obtain ⟨s3, h3, -⟩ := LRUCache.lru_get_of_mem hwf2 hm
    exact ⟨s3, h3⟩
  · have hm : (k2, v2) ∈ s2.entries := by rw [he2]; simp
    obtain ⟨s3, h3, -⟩ := LRUCache.lru_get_of_mem hwf2 hm
    exact ⟨s3, h3⟩
  · intro j hj
    have hj1 : j ∈ s1.keys := (hkeys1 j).2 hj
    have hjne : j ≠ k2 := fun e => hk2 (e ▸ hj)
    rw [hkeys2, List.mem_cons, not_or]
    rw [← not_mem_dropLast_iff hwf1.key_nodup hback hj1]
    exact ⟨fun h => h.2, fun h => ⟨hjne, h⟩⟩

/-- Witness of C6: the test driver's case, `get(3)` then `put(5, "five")`. -/
theorem lru_get_protects_witness :
    (2 ≤ 3 ∧ LRUCache.Reachable 3 lruTestState ∧ lruTestState.buffer_.length = 3 ∧
      LRUCache.get lruTestState 3 = some (GetResult.value "three", lruTestStateGot) ∧
      (5 : Int) ∉ lruTestState.keys) ∧
    ∃ s2 back, LRUCache.put lruTestStateGot 5 "five" = some s2 ∧
      lruTestStateGot.keys.getLast? = some back ∧ back ∈ lruTestState.keys ∧ back ≠ 3 ∧
      (∃ s3, LRUCache.get s2 3 = some (GetResult.value "three", s3)) ∧
      (∃ s3, LRUCache.get s2 5 = some (GetResult.value "five", s3)) ∧
      (∀ j ∈ lruTestState.keys, j ∉ s2.keys ↔ j = back) :=
  ⟨⟨by decide, ⟨lruTestOps, by decide⟩, by decide, by decide, by decide⟩,
   lru_get_protects 3 (by decide) lruTestState lruTestStateGot 3 "three" 5 "five"
     ⟨lruTestOps, by decide⟩ (by decide) (by decide) (by decide)⟩

/-- C7 (FIFO get is read-only). Whatever `FIFOBuffer::get` returns or throws, it
leaves the object state (ordering and index) exactly as it was, and in every
reachable state it does complete; so for every call sequence on a new
`FIFOBuffer` the outcome equals that of the same sequence with all `get` calls
removed. -/
theorem fifo_get_read_only (s : State) (key : Int) (c : Nat) (ops : List Op) :
    (∀ r, FIFOBuffer.get s key = some r → r.2 = s) ∧
    (FIFOBuffer.Reachable c s → ∃ r, FIFOBuffer.get s key = some (r, s)) ∧
    FIFOBuffer.run (FIFOBuffer.new c) ops
      = FIFOBuffer.run (FIFOBuffer.new c) (ops.filter Op.isPut) := by
  refine ⟨?_, ?_, FIFOBuffer.run_filter_put (State.WF.of_new c) ops⟩
  · intro r hr
    unfold FIFOBuffer.get at hr
    split at hr
    · cases hr; rfl
    · split at hr
      · cases hr
      · cases hr; rfl
  · intro hr
    obtain ⟨hwf, -⟩ := FIFOBuffer.reachable_wf hr
    rcases FIFOBuffer.get_spec hwf key with ⟨-, hg⟩ | ⟨v, -, hg⟩ <;> exact ⟨_, hg⟩

/-- Witness of C7: `get(2)` in the state the test driver reaches. -/
theorem fifo_get_read_only_witness :
    (FIFOBuffer.get fifoTestState 2 = some (GetResult.value "two", fifoTestState) ∧
      FIFOBuffer.Reachable 3 fifoTestState) ∧
    (GetResult.value "two", fifoTestState).2 = fifoTestState ∧
    (∃ r, FIFOBuffer.get fifoTestState 2 = some (r, fifoTestState)) ∧
    FIFOBuffer.run (FIFOBuffer.new 3) testOps
      = FIFOBuffer.run (FIFOBuffer.new 3) (testOps.filter Op.isPut) :=
  ⟨⟨by decide, ⟨testOps, by decide⟩⟩,
   (fifo_get_read_only fifoTestState 2 3 testOps).1 _ (by decide),
   (fifo_get_read_only fifoTestState 2 3 testOps).2.1 ⟨testOps, by decide⟩,
   (fifo_get_read_only fifoTestState 2 3 testOps).2.2⟩

/-- C8 (update-in-place refresh). For `FIFOBuffer` and `LRUCache` alike, in every
reachable state holding `key`, `put(key, value)` completes, keeps the number of
entries (in ordering and index) and the set of keys, so evicts nothing, leaves
an ordering with `(key, value)` at the front followed by the other entries in
their previous order with their values, and a following `get(key)` returns
`value`. -/
theorem put_existing_refreshes (c : Nat) (s : State) (key : Int) (value : String)
    (hk : key ∈ s.keys) :
    (FIFOBuffer.Reachable c s →
      ∃ s1, FIFOBuffer.put s key value = some s1 ∧
        s1.buffer_.length = s.buffer_.length ∧
        s1.cache_map_.length = s.cache_map_.length ∧
        (∀ k, k ∈ s1.keys ↔ k ∈ s.keys) ∧
        s1.entries = (key, value) :: s.entries.filter (fun e => decide (e.1 ≠ key)) ∧
        (∀ k w, k ≠ key → ((k, w) ∈ s1.entries ↔ (k, w) ∈ s.entries)) ∧
        FIFOBuffer.get s1 key = some (GetResult.value value, s1)) ∧
    (LRUCache.Reachable c s →
      ∃ s1 s2, LRUCache.put s key value = some s1 ∧
        s1.buffer_.length = s.buffer_.length ∧
        s1.cache_map_.length = s.cache_map_.length ∧
        (∀ k, k ∈ s1.keys ↔ k ∈ s.keys) ∧
        s1.entries = (key, value) :: s.entries.filter (fun e => decide (e.1 ≠ key)) ∧
        (∀ k w, k ≠ key → ((k, w) ∈ s1.entries ↔ (k, w) ∈ s.entries)) ∧
        LRUCache.get s1 key = some (GetResult.value value, s2)) := by
  constructor
  · intro hr
    obtain ⟨hwf, -⟩ := FIFOBuffer.reachable_wf hr
    obtain ⟨s1, hp, hwf1, h1, h2, h3, he, h5⟩ := FIFOBuffer.put_existing hwf hk value
    exact ⟨s1, hp, h1, h2, h3, he, h5,
      FIFOBuffer.get_of_mem hwf1 (by rw [he]; exact List.mem_cons_self _ _)⟩
  · intro hr
    obtain ⟨hwf, -⟩ := LRUCache.lru_reachable_wf hr
    obtain ⟨s1, hp, hwf1, h1, h2, h3, he, h5⟩ := FIFOBuffer.put_existing hwf hk value
    obtain ⟨s2, hg, -⟩ :=
      LRUCache.lru_get_of_mem hwf1 (show (key, value) ∈ s1.entries by
        rw [he]; exact List.mem_cons_self _ _)
    exact ⟨s1, s2, hp, h1, h2, h3, he, h5, hg⟩

/-- Witness of C8: the test driver's `put(2, "two-updated")`. -/
theorem put_existing_refreshes_witness :
    ((2 : Int) ∈ fifoTestState.keys ∧ FIFOBuffer.Reachable 3 fifoTestState ∧
      LRUCache.Reachable 3 fifoTestState) ∧
    (∃ s1, FIFOBuffer.put fifoTestState 2 "two-updated" = some s1 ∧
        s1.buffer_.length = fifoTestState.buffer_.length ∧
        s1.cache_map_.length = fifoTestState.cache_map_.length ∧
        (∀ k, k ∈ s1.keys ↔ k ∈ fifoTestState.keys) ∧
        s1.entries = (2, "two-updated") ::
          fifoTestState.entries.filter (fun e => decide (e.1 ≠ 2)) ∧
        (∀ k w, k ≠ 2 → ((k, w) ∈ s1.entries ↔ (k, w) ∈ fifoTestState.entries)) ∧
        FIFOBuffer.get s1 2 = some (GetResult.value "two-updated", s1)) ∧
    (∃ s1 s2, LRUCache.put fifoTestState 2 "two-updated" = some s1 ∧
        s1.buffer_.length = fifoTestState.buffer_.length ∧
        s1.cache_map_.length = fifoTestState.cache_map_.length ∧
        (∀ k, k ∈ s1.keys ↔ k ∈ fifoTestState.keys) ∧
        s1.entries = (2, "two-updated") ::
          fifoTestState.entries.filter (fun e => decide (e.1 ≠ 2)) ∧
        (∀ k w, k ≠ 2 → ((k, w) ∈ s1.entries ↔ (k, w) ∈ fifoTestState.entries)) ∧
        LRUCache.get s1 2 = some (GetResult.value "two-updated", s2)) :=
  ⟨⟨by decide, ⟨testOps, by decide⟩, ⟨testOps, by decide⟩⟩,
   (put_existing_refreshes 3 fifoTestState 2 "two-updated" (by decide)).1
     ⟨testOps, by decide⟩,
   (put_existing_refreshes 3 fifoTestState 2 "two-updated" (by decide)).2
     ⟨testOps, by decide⟩⟩

/-- C9 (eviction only on put of a new key at full capacity). For every capacity
`c` (so for every `c ≥ 1`), every reachable state of a `FIFOBuffer` or an `LRUCache` and every
single call: when a key `k` is held before the call and not after it, the call
is `put(k2, _)` for a key `k2` not held before, the cache held exactly `c`
entries, `k` was the last entry of the ordering, and `k` is the only key that
went missing. -/
theorem eviction_only_on_full_put (c : Nat) (s s1 : State) (op : Op)
    (k : Int) (hk : k ∈ s.keys) (hk1 : k ∉ s1.keys) :
    (FIFOBuffer.Reachable c s → FIFOBuffer.step s op = some s1 →
      ∃ k2 v2, op = Op.put k2 v2 ∧ k2 ∉ s.keys ∧ s.buffer_.length = c ∧
        s.keys.getLast? = some k ∧ ∀ j ∈ s.keys, j ∉ s1.keys → j = k) ∧
    (LRUCache.Reachable c s → LRUCache.step s op = some s1 →
      ∃ k2 v2, op = Op.put k2 v2 ∧ k2 ∉ s.keys ∧ s.buffer_.length = c ∧
        s.keys.getLast? = some k ∧ ∀ j ∈ s.keys, j ∉ s1.keys → j = k) := by
  constructor
  · intro hr hs
    obtain ⟨hwf, hcap⟩ := FIFOBuffer.reachable_wf hr
    cases op with
    | put k2 v2 =>
      obtain ⟨h1, h2, h3, h4⟩ := FIFOBuffer.put_removes hwf hs hk hk1
      exact ⟨k2, v2, rfl, h1, by rw [h2, hcap], h3, h4⟩
    | get key =>
      have hg : ∃ r, FIFOBuffer.get s key = some (r, s) := by
        rcases FIFOBuffer.get_spec hwf key with ⟨-, hg⟩ | ⟨v, -, hg⟩ <;> exact ⟨_, hg⟩
      obtain ⟨r, hg⟩ := hg
      simp only [FIFOBuffer.step, hg, Option.map_some', Option.some.injEq] at hs
      subst hs
      exact absurd hk hk1
  · intro hr hs
    obtain ⟨hwf, hcap⟩ := LRUCache.lru_reachable_wf hr
    cases op with
    | put k2 v2 =>
      obtain ⟨h1, h2, h3, h4⟩ := FIFOBuffer.put_removes hwf hs hk hk1
      exact ⟨k2, v2, rfl, h1, by rw [h2, hcap], h3, h4⟩
    | get key =>
      rcases LRUCache.lru_get_spec hwf key with ⟨-, hg⟩ | ⟨v, t1, hv, hg, -, -, -, he⟩
      · simp only [LRUCache.step, hg, Option.map_some', Option.some.injEq] at hs
        subst hs
        exact absurd hk hk1
      · simp only [LRUCache.step, hg, Option.map_some', Option.some.injEq] at hs
        subst hs
        obtain ⟨-, hkeys, -, -⟩ := touch_facts hwf.entries_nodup hv v
        rw [← he] at hkeys
        simp only [← State.keys_eq_entries] at hkeys
        exact absurd ((hkeys k).2 hk) hk1

/-- Witness of C9: `put(5, "five")` on the full cache the test driver reaches
evicts key 2, the last entry of the ordering. -/
theorem eviction_only_on_full_put_witness :
    ((2 : Int) ∈ fifoTestState.keys ∧ (2 : Int) ∉ fifoTestStatePut5.keys ∧
      FIFOBuffer.Reachable 3 fifoTestState ∧
      FIFOBuffer.step fifoTestState (Op.put 5 "five") = some fifoTestStatePut5 ∧
      LRUCache.Reachable 3 fifoTestState ∧
      LRUCache.step fifoTestState (Op.put 5 "five") = some fifoTestStatePut5) ∧
    (∃ k2 v2, Op.put 5 "five" = Op.put k2 v2 ∧ k2 ∉ fifoTestState.keys ∧
        fifoTestState.buffer_.length = 3 ∧ fifoTestState.keys.getLast? = some 2 ∧
        ∀ j ∈ fifoTestState.keys, j ∉ fifoTestStatePut5.keys → j = 2) ∧
    (∃ k2 v2, Op.put 5 "five" = Op.put k2 v2 ∧ k2 ∉ fifoTestState.keys ∧
        fifoTestState.buffer_.length = 3 ∧ fifoTestState.keys.getLast? = some 2 ∧
        ∀ j ∈ fifoTestState.keys, j ∉ fifoTestStatePut5.keys → j = 2) :=
  ⟨⟨by decide, by decide, ⟨testOps, by decide⟩, by decide,
    ⟨testOps, by decide⟩, by decide⟩,
   (eviction_only_on_full_put 3 fifoTestState fifoTestStatePut5
     (Op.put 5 "five") 2 (by decide) (by decide)).1 ⟨testOps, by decide⟩ (by decide),
   (eviction_only_on_full_put 3 fifoTestState fifoTestStatePut5
     (Op.put 5 "five") 2 (by decide) (by decide)).2 ⟨testOps, by decide⟩ (by decide)⟩

/-- C10 (uniqueness). In every state reachable from an empty `FIFOBuffer` or
`LRUCache` by `put` and `get` calls, no two entries of the ordering have the
same key. -/
theorem uniqueness (c : Nat) (s : State) :
    (FIFOBuffer.Reachable c s → s.keys.Nodup) ∧
    (LRUCache.Reachable c s → s.keys.Nodup) :=
  ⟨fun hr => (FIFOBuffer.reachable_wf hr).1.key_nodup,
   fun hr => (LRUCache.lru_reachable_wf hr).1.key_nodup⟩

/-- Witness of C10: the state the test driver reaches. -/
theorem uniqueness_witness :
    (FIFOBuffer.Reachable 3 fifoTestState ∧ LRUCache.Reachable 3 lruTestState) ∧
    fifoTestState.keys.Nodup ∧ lruTestState.keys.Nodup :=
  ⟨⟨⟨testOps, by decide⟩, ⟨lruTestOps, by decide⟩⟩,
   (uniqueness 3 fifoTestState).1 ⟨testOps, by decide⟩,
   (uniqueness 3 lruTestState).2 ⟨lruTestOps, by decide⟩⟩

/-- C11 (index/ordering agreement). In every state reachable from an empty
`FIFOBuffer` or `LRUCache` (of any capacity, so of every capacity `≥ 1`),
`cache_map_` and `buffer_` have the same number of elements, a key is in the
index exactly when the ordering holds an entry with that key, and the iterator
the index holds for a key designates a node of the ordering that has that key
and is the only entry with it. -/
theorem index_ordering_agreement (c : Nat) (s : State) :
    (FIFOBuffer.Reachable c s →
      s.cache_map_.length = s.buffer_.length ∧
      (∀ k, (∃ it, UMap.find s.cache_map_ k = some it) ↔ k ∈ s.keys) ∧
      (∀ k it, UMap.find s.cache_map_ k = some it →
        ∃ n, StdList.deref s.buffer_ it = some n ∧ n ∈ s.buffer_ ∧ n.first = k ∧
          ∀ m ∈ s.buffer_, m.first = k → m = n)) ∧
    (LRUCache.Reachable c s →
      s.cache_map_.length = s.buffer_.length ∧
      (∀ k, (∃ it, UMap.find s.cache_map_ k = some it) ↔ k ∈ s.keys) ∧
      (∀ k it, UMap.find s.cache_map_ k = some it →
        ∃ n, StdList.deref s.buffer_ it = some n ∧ n ∈ s.buffer_ ∧ n.first = k ∧
          ∀ m ∈ s.buffer_, m.first = k → m = n)) :=
  ⟨fun hr => (FIFOBuffer.reachable_wf hr).1.agreement,
   fun hr => (LRUCache.lru_reachable_wf hr).1.agreement⟩

/-- Witness of C11: the state the LRU test driver reaches, where the order of the
index differs from the order of the list. -/
theorem index_ordering_agreement_witness :
    (FIFOBuffer.Reachable 3 fifoTestState ∧ LRUCache.Reachable 3 lruTestState) ∧
    (fifoTestState.cache_map_.length = fifoTestState.buffer_.length ∧
      (∀ k, (∃ it, UMap.find fifoTestState.cache_map_ k = some it)
        ↔ k ∈ fifoTestState.keys) ∧
      (∀ k it, UMap.find fifoTestState.cache_map_ k = some it →
        ∃ n, StdList.deref fifoTestState.buffer_ it = some n ∧
          n ∈ fifoTestState.buffer_ ∧ n.first = k ∧
          ∀ m ∈ fifoTestState.buffer_, m.first = k → m = n)) ∧
    (lruTestState.cache_map_.length = lruTestState.buffer_.length ∧
      (∀ k, (∃ it, UMap.find lruTestState.cache_map_ k = some it)
        ↔ k ∈ lruTestState.keys) ∧
      (∀ k it, UMap.find lruTestState.cache_map_ k = some it →
        ∃ n, StdList.deref lruTestState.buffer_ it = some n ∧
          n ∈ lruTestState.buffer_ ∧ n.first = k ∧
          ∀ m ∈ lruTestState.buffer_, m.first = k → m = n)) :=
  ⟨⟨⟨testOps, by decide⟩, ⟨lruTestOps, by decide⟩⟩,
   (index_ordering_agreement 3 fifoTestState).1 ⟨testOps, by decide⟩,
   (index_ordering_agreement 3 lruTestState).2 ⟨lruTestOps, by decide⟩⟩

/-- C12 (idempotent get, LRU). In every reachable `LRUCache` state holding `key`,
two `get(key)` calls in a row return the same value, `key` is at the front of
the ordering after the first call and after the second, and the second call
leaves the state the first one produced. -/
theorem lru_get_idempotent (c : Nat) (s : State) (key : Int)
    (hr : LRUCache.Reachable c s) (hk : key ∈ s.keys) :
    ∃ v s1, LRUCache.get s key = some (GetResult.value v, s1) ∧
      LRUCache.get s1 key = some (GetResult.value v, s1) ∧
      s1.keys.head? = some key := by
  obtain ⟨hwf, -⟩ := LRUCache.lru_reachable_wf hr
  obtain ⟨l1, n, l2, hb, rfl⟩ := State.split_of_mem_keys hk
  have hwf1 := hwf.touch hb n.second
  refine ⟨n.second, _, LRUCache.lru_get_hit hwf hb, ?_, rfl⟩
  exact @LRUCache.lru_get_hit _ hwf1 [] (l1 ++ l2) n rfl

/-- Witness of C12: `get(3)` twice in the state the LRU test driver reaches. -/
theorem lru_get_idempotent_witness :
    (LRUCache.Reachable 3 lruTestState ∧ (3 : Int) ∈ lruTestState.keys) ∧
    ∃ v s1, LRUCache.get lruTestState 3 = some (GetResult.value v, s1) ∧
      LRUCache.get s1 3 = some (GetResult.value v, s1) ∧
      s1.keys.head? = some 3 :=
  ⟨⟨⟨lruTestOps, by decide⟩, by decide⟩,
   lru_get_idempotent 3 lruTestState 3 ⟨lruTestOps, by decide⟩ (by decide)⟩

/-- C13, as stated, fails: after `put` of keys 1, 2, 3, 4, `get(3)` and
`put(5, "five")` on an empty `LRUCache(3)` it is not the case that `get(4)`
throws while `get(2)`, `get(3)` and `get(5)` return their values. -/
theorem lru_spec_scenario_counterexample :
    ¬ ∃ s, LRUCache.run (LRUCache.new 3)
        (specScenarioOps "one" "two" "three" "four" "five") = some s ∧
      (LRUCache.get s 4).map Prod.fst = some GetResult.out_of_range ∧
      (LRUCache.get s 2).map Prod.fst = some (GetResult.value "two") ∧
      (LRUCache.get s 3).map Prod.fst = some (GetResult.value "three") ∧
      (LRUCache.get s 5).map Prod.fst = some (GetResult.value "five") := by
  rintro ⟨s, hr, h4, -⟩
  have h : LRUCache.run (LRUCache.new 3)
      (specScenarioOps "one" "two" "three" "four" "five")
      = some ⟨3, [⟨5, 5, "five"⟩, ⟨3, 3, "three"⟩, ⟨4, 4, "four"⟩],
          [(5, 5), (4, 4), (3, 3)]⟩ := by decide
  rw [h] at hr
  cases hr
  revert h4
  decide

/-- C13, amended. After `put` of keys 1, 2, 3, 4 the ordering of an
`LRUCache(3)` is 4, 3, 2 from front to back, so `get(3)` followed by
`put(5, _)` evicts key 2, the least recently used: afterwards `get(2)` throws
`std::out_of_range` while `get(3)`, `get(4)` and `get(5)` return the values that
were put.  Key 4 is the one evicted in the test driver's longer call sequence,
which reads 2, 3, 4 and updates 2 before the `get(3)`: there `get(4)` throws
and `get(2)`, `get(3)`, `get(5)` return their values. -/
theorem lru_spec_scenario (v1 v2 v3 v4 v5 : String) :
    (∃ s, LRUCache.run (LRUCache.new 3) (specScenarioOps v1 v2 v3 v4 v5) = some s ∧
      s.entries = [(5, v5), (3, v3), (4, v4)] ∧
      LRUCache.get s 2 = some (GetResult.out_of_range, s) ∧
      (LRUCache.get s 3).map Prod.fst = some (GetResult.value v3) ∧
      (LRUCache.get s 4).map Prod.fst = some (GetResult.value v4) ∧
      (LRUCache.get s 5).map Prod.fst = some (GetResult.value v5)) ∧
    (∃ s, LRUCache.run (LRUCache.new 3) lruTestOpsPut5 = some s ∧
      s.entries = [(5, "five"), (3, "three"), (2, "two-updated")] ∧
      LRUCache.get s 4 = some (GetResult.out_of_range, s) ∧
      (LRUCache.get s 2).map Prod.fst = some (GetResult.value "two-updated") ∧
      (LRUCache.get s 3).map Prod.fst = some (GetResult.value "three") ∧
      (LRUCache.get s 5).map Prod.fst = some (GetResult.value "five")) := by
  constructor
  · exact ⟨⟨3, [⟨5, 5, v5⟩, ⟨3, 3, v3⟩, ⟨4, 4, v4⟩], [(5, 5), (4, 4), (3, 3)]⟩,
      rfl, rfl, rfl, rfl, rfl, rfl⟩
  · exact ⟨⟨3, [⟨4, 5, "five"⟩, ⟨3, 3, "three"⟩, ⟨2, 2, "two-updated"⟩],
      [(5, 4), (3, 3), (2, 2)]⟩, by decide, by decide, by decide, by decide, by decide,
      by decide⟩

/-- C14 (hasTwoSum is exact). For every list `nums` and every `target` for which
no subtraction `target - nums[i]` overflows `int` (arithmetic is exact),
`hasTwoSum(nums, target)` returns, and returns `true` exactly when two
positions `i < j` have `nums[i] + nums[j] = target`.  It is `false` for the
empty list and for `{1, 2, 3, 4}` with target 8 (4 is not paired with itself),
and `true` for `{0, 4, 0, 5}` with target 0 (equal values at two positions). -/
theorem hasTwoSum_exact (nums : List Int) (target : Int)
    (hno : ∀ x ∈ nums, INT_MIN ≤ target - x ∧ target - x ≤ INT_MAX) :
    (∃ b, hasTwoSum nums target = some b ∧
      (b = true ↔ ∃ (i j : Nat) (hi : i < nums.length) (hj : j < nums.length),
        i < j ∧ nums[i] + nums[j] = target)) ∧
    hasTwoSum [] target = some false ∧
    hasTwoSum [1, 2, 3, 4] 8 = some false ∧
    hasTwoSum [0, 4, 0, 5] 0 = some true := by
  refine ⟨?_, rfl, by decide, by decide⟩
  obtain ⟨b, hb, hiff⟩ := hasTwoSumLoop_spec target nums 0 [] [] (by simp) hno
  refine ⟨b, hb, ?_⟩
  have hfalse : b = false ↔ nums.Pairwise (fun a b => a + b ≠ target) := by
    rw [hiff]; simp
  rw [List.pairwise_iff_getElem] at hfalse
  constructor
  · intro hb1
    by_contra hne
    have : b = false := hfalse.2 (by
      intro i j hi hj hij e
      exact hne ⟨i, j, hi, hj, hij, e⟩)
    rw [this] at hb1
    cases hb1
  · rintro ⟨i, j, hi, hj, hij, e⟩
    cases hbv : b with
    | true => rfl
    | false => exact absurd e (hfalse.1 hbv i j hi hj hij)

/-- Witness of C14: the test driver's basic positive case, `{2, 7, 11, 15}` with
target 9. -/
theorem hasTwoSum_exact_witness :
    (∀ x ∈ [(2 : Int), 7, 11, 15], INT_MIN ≤ 9 - x ∧ 9 - x ≤ INT_MAX) ∧
    (∃ b, hasTwoSum [2, 7, 11, 15] 9 = some b ∧
      (b = true ↔ ∃ (i j : Nat) (hi : i < [(2 : Int), 7, 11, 15].length)
        (hj : j < [(2 : Int), 7, 11, 15].length),
        i < j ∧ [(2 : Int), 7, 11, 15][i] + [(2 : Int), 7, 11, 15][j] = 9)) ∧
    hasTwoSum [] 9 = some false ∧
    hasTwoSum [1, 2, 3, 4] 8 = some false ∧
    hasTwoSum [0, 4, 0, 5] 0 = some true :=
  ⟨by decide, hasTwoSum_exact [2, 7, 11, 15] 9 (by decide)⟩

/-- C15, as stated, fails: for the acyclic graph of a root of value `INT_MAX`
with one child of value 1, no amount of fuel makes `maxPathSum(root)` return
the maximum path sum (which is `INT_MAX + 1`, the sum along root, child). -/
theorem maxPathSum_counterexample :
    wellRanked overflowHeap (fun a => 1 - a) = true ∧
    isPath overflowHeap [0, 1] = true ∧ pathSum overflowHeap [0, 1] = INT_MAX + 1 ∧
    maxPathSum overflowHeap 2 (some 0) = Outcome.undefined ∧
    ¬ ∃ fuel v, maxPathSum overflowHeap fuel (some 0) = Outcome.ok v ∧
      IsMaxPathSum overflowHeap 0 v := by
  refine ⟨by decide, by decide, by decide, by decide, ?_⟩
  rintro ⟨fuel, v, h, -⟩
  match fuel, h with
  | 0, h => cases h
  | 1, h => cases h
  | n + 2, h =>
    have e : maxPathSum overflowHeap (n + 2) (some 0) = Outcome.undefined := rfl
    rw [e] at h
    cases h

/-- C15, amended. For every finite directed acyclic graph of `Node`s with `int`
values and every non-null root such that no path starting at a node reachable
from the root has a sum above `INT_MAX` (no addition overflows),
`maxPathSum(root)` returns (with fuel above the rank of the root) the maximum,
over all non-empty paths that start at the root and follow child edges, of the
sum of the node values on the path.  A null root yields 0, and for the graph
of `main` the result is 20. -/
theorem maxPathSum_max (g : Heap) (rank : Nat → Nat) (hr : wellRanked g rank = true)
    (hv : ∀ n ∈ g, INT_MIN ≤ n.value ∧ n.value ≤ INT_MAX) (a : Nat) (ha : a < g.length)
    (fuel : Nat) (hfuel : rank a < fuel) (hfit : PathsFit g a) :
    (∃ v, maxPathSum g fuel (some a) = Outcome.ok v ∧ IsMaxPathSum g a v) ∧
    maxPathSum g fuel none = Outcome.ok 0 ∧
    maxPathSum testHeap 4 (some 0) = Outcome.ok 20 := by
  have hrk := wellRanked_ranked hr
  refine ⟨?_, by cases fuel <;> rfl, by decide⟩
  obtain ⟨v, h1, h2⟩ :=
    maxPathSumPlain_max hrk (fun n hn => (hv n hn).1) fuel a ha hfuel hfit
  exact ⟨v, by rw [maxPathSum_eq_plain hrk fuel a hfuel, h1], h2⟩

/-- Witness of C15 amended: the graph of `main`, root at address 0. -/
theorem maxPathSum_max_witness :
    (wellRanked testHeap testRank = true ∧
      (∀ n ∈ testHeap, INT_MIN ≤ n.value ∧ n.value ≤ INT_MAX) ∧
      0 < testHeap.length ∧ testRank 0 < 4 ∧ PathsFit testHeap 0) ∧
    (∃ v, maxPathSum testHeap 4 (some 0) = Outcome.ok v ∧ IsMaxPathSum testHeap 0 v) ∧
    maxPathSum testHeap 4 none = Outcome.ok 0 ∧
    maxPathSum testHeap 4 (some 0) = Outcome.ok 20 :=
  have hfit : PathsFit testHeap 0 :=
    pathsFit_of_values (wellRanked_ranked (by decide : wellRanked testHeap testRank = true))
      (by decide : (0 : Int) ≤ 10) (by decide) 0 (by decide)
  ⟨⟨by decide, by decide, by decide, by decide, hfit⟩,
   maxPathSum_max testHeap testRank (by decide) (by decide) 0 (by decide) 4 (by decide)
     hfit⟩

/-- C16 (LRU recency model). For every capacity `c ≥ 1` and every sequence of
`put` and `get` calls on an empty `LRUCache(c)`, the calls complete and the keys
of the ordering, front to back, are the first `c` keys of the recency list: the
distinct touched keys, most recently touched first, where every `put` and every
`get` that returned a value is a touch.  Hence a key that a following `put`
evicts is the last of those first `c` keys, the least recently touched key among
those present. -/
theorem lru_recency_model (c : Nat) (hc : 1 ≤ c) (ops : List Op) (s s1 : State)
    (key : Int) (value : String) (evicted : Int) :
    (∃ s0, LRUCache.run (LRUCache.new c) ops = some s0 ∧
      s0.keys = (recencyOrder (LRUCache.touches (LRUCache.new c) ops)).take c) ∧
    (LRUCache.run (LRUCache.new c) ops = some s →
      LRUCache.put s key value = some s1 → evicted ∈ s.keys → evicted ∉ s1.keys →
      ((recencyOrder (LRUCache.touches (LRUCache.new c) ops)).take c).getLast?
        = some evicted) := by
  obtain ⟨s0, hr, hwf, -, hk⟩ := LRUCache.lru_run_recency (State.WF.of_new c) hc []
    List.nodup_nil (by simp [FIFOBuffer.new, State.keys]) ops
  have hr' : LRUCache.run (LRUCache.new c) ops = some s0 := hr
  have hk' : s0.keys = (recencyOrder (LRUCache.touches (LRUCache.new c) ops)).take c := hk
  refine ⟨⟨s0, hr', hk'⟩, ?_⟩
  intro hs hp hin hout
  rw [hr'] at hs
  cases hs
  obtain ⟨-, -, hlast, -⟩ := FIFOBuffer.put_removes hwf hp hin hout
  rw [← hk']
  exact hlast

/-- Witness of C16: the test driver's calls up to `get(3)`, then `put(5, "five")`,
which evicts key 4. -/
theorem lru_recency_model_witness :
    (1 ≤ 3 ∧
      LRUCache.run (LRUCache.new 3) (lruTestOps ++ [Op.get 3]) = some lruTestStateGot ∧
      LRUCache.put lruTestStateGot 5 "five" = some lruTestStatePut5 ∧
      (4 : Int) ∈ lruTestStateGot.keys ∧ (4 : Int) ∉ lruTestStatePut5.keys) ∧
    (∃ s0, LRUCache.run (LRUCache.new 3) (lruTestOps ++ [Op.get 3]) = some s0 ∧
      s0.keys = (recencyOrder
        (LRUCache.touches (LRUCache.new 3) (lruTestOps ++ [Op.get 3]))).take 3) ∧
    ((recencyOrder
        (LRUCache.touches (LRUCache.new 3) (lruTestOps ++ [Op.get 3]))).take 3).getLast?
      = some 4 :=
  ⟨⟨by decide, by decide, by decide, by decide, by decide⟩,
   (lru_recency_model 3 (by decide) (lruTestOps ++ [Op.get 3]) lruTestStateGot
     lruTestStatePut5 5 "five" 4).1,
   (lru_recency_model 3 (by decide) (lruTestOps ++ [Op.get 3]) lruTestStateGot
     lruTestStatePut5 5 "five" 4).2 (by decide) (by decide) (by decide) (by decide)⟩

/-- C17 (the two policies differ only in get). `FIFOBuffer::put` and
`LRUCache::put` are the same state transformer, `FIFOBuffer::get` and
`LRUCache::get` hand the same value or the same exception to the caller on
equal states, and for every capacity and every sequence of `put` calls a
`FIFOBuffer` and an `LRUCache` reach the same state. -/
theorem policies_differ_only_in_get (c : Nat) (s : State) (key : Int) (value : String)
    (kvs : List (Int × String)) :
    FIFOBuffer.put s key value = LRUCache.put s key value ∧
    (FIFOBuffer.get s key).map Prod.fst = (LRUCache.get s key).map Prod.fst ∧
    FIFOBuffer.run (FIFOBuffer.new c) (putsOf kvs)
      = LRUCache.run (LRUCache.new c) (putsOf kvs) :=
  ⟨rfl, get_result_eq s key, run_puts_eq (FIFOBuffer.new c) kvs⟩

/-- C18 (put and get never fail on a valid cache). For every capacity `c ≥ 1`
and every state reachable from an empty `FIFOBuffer(c)` or `LRUCache(c)`:
`put(key, value)` and `get(key)` complete; when `put` reaches its eviction
branch (key not in the index, size at least the capacity) the ordering is not
empty, so `back()` and `pop_back()` are defined; and an iterator read from the
index for `key` designates a node of the ordering holding `key`. -/
theorem put_get_never_fail (c : Nat) (hc : 1 ≤ c) (s : State) (key : Int)
    (value : String) :
    (FIFOBuffer.Reachable c s →
      (∃ s1, FIFOBuffer.put s key value = some s1) ∧
      (∃ r, FIFOBuffer.get s key = some r) ∧
      (UMap.find s.cache_map_ key = none → s.buffer_.length ≥ s.capacity_ →
        s.buffer_ ≠ [] ∧ (∃ last, StdList.back s.buffer_ = some last) ∧
        ∃ b1, StdList.pop_back s.buffer_ = some b1) ∧
      (∀ it, UMap.find s.cache_map_ key = some it →
        ∃ n, StdList.deref s.buffer_ it = some n ∧ n ∈ s.buffer_ ∧ n.first = key)) ∧
    (LRUCache.Reachable c s →
      (∃ s1, LRUCache.put s key value = some s1) ∧
      (∃ r, LRUCache.get s key = some r) ∧
      (UMap.find s.cache_map_ key = none → s.buffer_.length ≥ s.capacity_ →
        s.buffer_ ≠ [] ∧ (∃ last, StdList.back s.buffer_ = some last) ∧
        ∃ b1, StdList.pop_back s.buffer_ = some b1) ∧
      (∀ it, UMap.find s.cache_map_ key = some it →
        ∃ n, StdList.deref s.buffer_ it = some n ∧ n ∈ s.buffer_ ∧ n.first = key)) := by
  have hev : s.WF → s.capacity_ = c →
      (UMap.find s.cache_map_ key = none → s.buffer_.length ≥ s.capacity_ →
        s.buffer_ ≠ [] ∧ (∃ last, StdList.back s.buffer_ = some last) ∧
        ∃ b1, StdList.pop_back s.buffer_ = some b1) ∧
      (∀ it, UMap.find s.cache_map_ key = some it →
        ∃ n, StdList.deref s.buffer_ it = some n ∧ n ∈ s.buffer_ ∧ n.first = key) := by
    intro hwf hcap
    constructor
    · intro _ hge
      have hne : s.buffer_ ≠ [] := by
        intro e
        rw [e] at hge
        simp at hge
        omega
      have hb : s.buffer_ = s.buffer_.dropLast ++ [s.buffer_.getLast hne] :=
        (List.dropLast_append_getLast hne).symm
      refine ⟨hne, ⟨s.buffer_.getLast hne, List.getLast?_eq_getLast _ hne⟩, ?_⟩
      rw [hb]
      exact ⟨_, StdList.pop_back_concat _ _⟩
    · intro it hf
      obtain ⟨n, h1, h2, h3, -⟩ := hwf.locator hf
      exact ⟨n, h1, h2, h3⟩
  constructor
  · intro hr
    obtain ⟨hwf, hcap⟩ := FIFOBuffer.reachable_wf hr
    obtain ⟨s1, hp, -⟩ := FIFOBuffer.put_spec hwf (by omega) key value
    have hg : ∃ r, FIFOBuffer.get s key = some r := by
      rcases FIFOBuffer.get_spec hwf key with ⟨-, hg⟩ | ⟨v, -, hg⟩ <;> exact ⟨_, hg⟩
    exact ⟨⟨s1, hp⟩, hg, hev hwf hcap⟩
  · intro hr
    obtain ⟨hwf, hcap⟩ := LRUCache.lru_reachable_wf hr
    obtain ⟨s1, hp, -⟩ := FIFOBuffer.put_spec hwf (by omega) key value
    have hg : ∃ r, LRUCache.get s key = some r := by
      rcases LRUCache.lru_get_spec hwf key with ⟨-, hg⟩ | ⟨v, s2, -, hg, -⟩ <;>
        exact ⟨_, hg⟩
    exact ⟨⟨s1, hp⟩, hg, hev hwf hcap⟩

/-- Witness of C18: `put(5, "five")` and `get(5)` on the full caches the test
drivers reach, where `put` takes the eviction branch. -/
theorem put_get_never_fail_witness :
    (1 ≤ 3 ∧ FIFOBuffer.Reachable 3 fifoTestState ∧ LRUCache.Reachable 3 fifoTestState) ∧
    ((∃ s1, FIFOBuffer.put fifoTestState 5 "five" = some s1) ∧
      (∃ r, FIFOBuffer.get fifoTestState 5 = some r) ∧
      (UMap.find fifoTestState.cache_map_ 5 = none →
        fifoTestState.buffer_.length ≥ fifoTestState.capacity_ →
        fifoTestState.buffer_ ≠ [] ∧
        (∃ last, StdList.back fifoTestState.buffer_ = some last) ∧
        ∃ b1, StdList.pop_back fifoTestState.buffer_ = some b1) ∧
      (∀ it, UMap.find fifoTestState.cache_map_ 5 = some it →
        ∃ n, StdList.deref fifoTestState.buffer_ it = some n ∧
          n ∈ fifoTestState.buffer_ ∧ n.first = 5)) ∧
    ((∃ s1, LRUCache.put fifoTestState 5 "five" = some s1) ∧
      (∃ r, LRUCache.get fifoTestState 5 = some r) ∧
      (UMap.find fifoTestState.cache_map_ 5 = none →
        fifoTestState.buffer_.length ≥ fifoTestState.capacity_ →
        fifoTestState.buffer_ ≠ [] ∧
        (∃ last, StdList.back fifoTestState.buffer_ = some last) ∧
        ∃ b1, StdList.pop_back fifoTestState.buffer_ = some b1) ∧
      (∀ it, UMap.find fifoTestState.cache_map_ 5 = some it →
        ∃ n, StdList.deref fifoTestState.buffer_ it = some n ∧
          n ∈ fifoTestState.buffer_ ∧ n.first = 5)) :=
  ⟨⟨by decide, ⟨testOps, by decide⟩, ⟨testOps, by decide⟩⟩,
   (put_get_never_fail 3 (by decide) fifoTestState 5 "five").1 ⟨testOps, by decide⟩,
   (put_get_never_fail 3 (by decide) fifoTestState 5 "five").2 ⟨testOps, by decide⟩⟩

/-- C19, as stated, fails: on a `FIFOBuffer` of capacity 0, `put(1, "one")` does
not complete with the entry removed again and the cache empty. -/
theorem zero_capacity_counterexample :
    ¬ ∃ s1, FIFOBuffer.put (FIFOBuffer.new 0) 1 "one" = some s1 ∧
      (1 : Int) ∉ s1.keys ∧ s1.buffer_ = [] := by
  rintro ⟨s1, hp, -, he⟩
  exact put_buffer_ne_nil hp he

/-- C19, amended. With capacity 0, `put` on the empty cache finds
`buffer_.size() >= capacity_` before anything is inserted and calls
`buffer_.back()` and `pop_back()` on an empty list, which is undefined: no `put`
has a defined result, so the only state defined calls reach is the empty cache,
where every `get` throws `std::out_of_range`.  The insertion is the last thing
`put` does: a `put` that completes, from any state and with any capacity, never
leaves the ordering empty. -/
theorem zero_capacity (key : Int) (value : String) (ops : List Op) (s s0 s1 : State) :
    FIFOBuffer.put (FIFOBuffer.new 0) key value = none ∧
    LRUCache.put (LRUCache.new 0) key value = none ∧
    (FIFOBuffer.run (FIFOBuffer.new 0) ops = some s →
      s = FIFOBuffer.new 0 ∧ FIFOBuffer.get s key = some (GetResult.out_of_range, s)) ∧
    (LRUCache.run (LRUCache.new 0) ops = some s →
      s = LRUCache.new 0 ∧ LRUCache.get s key = some (GetResult.out_of_range, s)) ∧
    (FIFOBuffer.put s0 key value = some s1 → s1.buffer_ ≠ []) ∧
    (LRUCache.put s0 key value = some s1 → s1.buffer_ ≠ []) := by
  refine ⟨put_new_zero key value, put_new_zero key value, ?_, ?_,
    put_buffer_ne_nil, put_buffer_ne_nil⟩
  · intro hr
    have e := FIFOBuffer.run_new_zero hr
    subst e
    exact ⟨rfl, rfl⟩
  · intro hr
    have e := LRUCache.lru_run_new_zero hr
    subst e
    exact ⟨rfl, rfl⟩

/-- Witness of C19 amended: `get(1)` on a new cache of capacity 0, and the
completed `put(5, "five")` of the test driver's capacity 3. -/
theorem zero_capacity_witness :
    (FIFOBuffer.run (FIFOBuffer.new 0) [Op.get 1] = some (FIFOBuffer.new 0) ∧
      LRUCache.run (LRUCache.new 0) [Op.get 1] = some (FIFOBuffer.new 0) ∧
      FIFOBuffer.put fifoTestState 5 "five" = some fifoTestStatePut5 ∧
      LRUCache.put fifoTestState 5 "five" = some fifoTestStatePut5) ∧
    (FIFOBuffer.new 0 = FIFOBuffer.new 0 ∧
      FIFOBuffer.get (FIFOBuffer.new 0) 5
        = some (GetResult.out_of_range, FIFOBuffer.new 0)) ∧
    (FIFOBuffer.new 0 = LRUCache.new 0 ∧
      LRUCache.get (FIFOBuffer.new 0) 5
        = some (GetResult.out_of_range, FIFOBuffer.new 0)) ∧
    fifoTestStatePut5.buffer_ ≠ [] ∧ fifoTestStatePut5.buffer_ ≠ [] :=
  ⟨⟨by decide, by decide, by decide, by decide⟩,
   (zero_capacity 5 "five" [Op.get 1] (FIFOBuffer.new 0) fifoTestState
     fifoTestStatePut5).2.2.1 (by decide),
   (zero_capacity 5 "five" [Op.get 1] (FIFOBuffer.new 0) fifoTestState
     fifoTestStatePut5).2.2.2.1 (by decide),
   (zero_capacity 5 "five" [Op.get 1] (FIFOBuffer.new 0) fifoTestState
     fifoTestStatePut5).2.2.2.2.1 (by decide),
   (zero_capacity 5 "five" [Op.get 1] (FIFOBuffer.new 0) fifoTestState
     fifoTestStatePut5).2.2.2.2.2 (by decide)⟩

/-- C20 (memoization does not change the result). For every finite directed
acyclic graph and every node `a`, with fuel above the rank of `a`,
`maxPathSumCached(a, cache)` started with an empty cache ends as the plain
recursion `f(n) = value(n) + max(0, max over the children c of f(c))` without a
cache does, returning the same value, and every value it has stored in the
cache for a node `m` is `f(m)`. -/
theorem memoization_preserves_result (g : Heap) (rank : Nat → Nat)
    (hr : wellRanked g rank = true) (a fuel : Nat) (hfuel : rank a < fuel) :
    maxPathSum g fuel (some a) = maxPathSumPlain g fuel (some a) ∧
    maxPathSum g fuel (some a) ≠ Outcome.outOfFuel ∧
    ∀ r cache, maxPathSumCached g fuel (some a) [] = Outcome.ok (r, cache) →
      maxPathSumPlain g fuel (some a) = Outcome.ok r ∧
      ∀ m v, NodeCache.find cache m = some v →
        ∀ fuel1, rank m < fuel1 → maxPathSumPlain g fuel1 (some m) = Outcome.ok v := by
  have hrk := wellRanked_ranked hr
  have hspec := maxPathSumCached_spec hrk fuel (some a) [] (CacheSound.nil g rank)
    (fun b hb => by cases hb; exact hfuel)
  refine ⟨maxPathSum_eq_plain hrk fuel a hfuel, ?_, ?_⟩
  · unfold maxPathSum
    rcases hspec with ⟨r, cache1, h1, -, -⟩ | ⟨h1, -⟩
    · rw [h1]; intro h; cases h
    · rw [h1]; intro h; cases h
  · intro r cache hc
    rcases hspec with ⟨r1, cache1, h1, h2, h3⟩ | ⟨h1, -⟩
    · rw [h1] at hc
      cases hc
      refine ⟨h2, ?_⟩
      intro m v hf fuel1 hf1
      rw [maxPathSumPlain_fuel hrk fuel1 (rank m + 1) m hf1 (Nat.lt_succ_self _)]
      exact h3 m v hf
    · rw [h1] at hc
      cases hc

/-- Witness of C20: the graph of `main`, root at address 0. -/
theorem memoization_preserves_result_witness :
    (wellRanked testHeap testRank = true ∧ testRank 0 < 4) ∧
    maxPathSum testHeap 4 (some 0) = maxPathSumPlain testHeap 4 (some 0) ∧
    maxPathSum testHeap 4 (some 0) ≠ Outcome.outOfFuel ∧
    ∀ r cache, maxPathSumCached testHeap 4 (some 0) [] = Outcome.ok (r, cache) →
      maxPathSumPlain testHeap 4 (some 0) = Outcome.ok r ∧
      ∀ m v, NodeCache.find cache m = some v →
        ∀ fuel1, testRank m < fuel1 →
          maxPathSumPlain testHeap fuel1 (some m) = Outcome.ok v :=
  ⟨⟨by decide, by decide⟩,
   memoization_preserves_result testHeap testRank (by decide) 0 4 (by decide)⟩
